import Mathlib

/-!
# A verification development for the lexer of `lang.go`

The Go program reads a source text through a `bufio.Reader`, one byte at a
time, and turns it into a flat list of token descriptors (Go strings).

Embedding conventions:

* a Go `byte` is a `Fin 256`; a Go `string` / `[]byte` is a `List Byte`;
* `bufio.Reader` is modelled by the unread bytes together with the reader's
  `lastByte` field (the only parts of its state that `ReadByte` and
  `UnreadByte` observe);
* the global `dispatch` map is passed explicitly; standard output is a field of
  the lexer state;
* a run-time panic (index out of range) is an `Except` error;
* the three `for { ... }` loops are recursive functions on a step budget; the
  entry points supply a budget computed from the unread input, and the
  theorems show that this budget is never exhausted.
-/

namespace Lang

/-- A Go `byte`. -/
abbrev Byte := Fin 256

/-- A Go `string` (equally a `[]byte`): a finite sequence of bytes. -/
abbrev GoString := List Byte

/-- The bytes of an ASCII string literal of the source. -/
def str (s : String) : GoString :=
  s.toList.map (fun ch => (⟨ch.toNat % 256, Nat.mod_lt _ (by decide)⟩ : Byte))

/-! ## Character classes (`lang.go` lines 11-21) -/

/-- Go `isWhiteSpace`: `char == ' ' || char == '\t' || char == '\n'`. -/
def isWhiteSpace (char : Byte) : Bool :=
  char == 32 || char == 9 || char == 10

/-- Go `isLetter`: `(char >= 'a' && char <= 'z') || (char >= 'A' && char <= 'Z')`. -/
def isLetter (char : Byte) : Bool :=
  (decide (97 ≤ char) && decide (char ≤ 122)) || (decide (65 ≤ char) && decide (char ≤ 90))

/-- Go `isDigit`: `char >= '0' && char <= '9'`. -/
def isDigit (char : Byte) : Bool :=
  decide (48 ≤ char) && decide (char ≤ 57)

/-! ## Token tags and the keyword table (`lang.go` lines 23-76) -/

/-- Go `type Token int` with its sixteen `iota` constants, in declaration order. -/
inductive Token where
  | INVTOK | ADD | SUB | MUL | DIV | WS | LBRACKET | RBRACKET
  | ASSIGN | REFERENCE | DECLARE | INT | FLOAT | IDENT | PRINT | EOF
  deriving DecidableEq, Repr

/-- The numeric value of a tag (`iota` numbering). -/
def Token.toInt : Token → Int
  | .INVTOK => 0 | .ADD => 1 | .SUB => 2 | .MUL => 3 | .DIV => 4 | .WS => 5
  | .LBRACKET => 6 | .RBRACKET => 7 | .ASSIGN => 8 | .REFERENCE => 9
  | .DECLARE => 10 | .INT => 11 | .FLOAT => 12 | .IDENT => 13 | .PRINT => 14
  | .EOF => 15

/-- A Go `map[string]Token`, as an association list with unique keys. -/
abbrev Dispatch := List (GoString × Token)

/-- Go `make(map[string]Token)`: the value of the global `dispatch` at start-up. -/
def Dispatch.empty : Dispatch := []

/-- Go `m[k] = v`. -/
def Dispatch.set (m : Dispatch) (k : GoString) (v : Token) : Dispatch :=
  (k, v) :: m.filter (fun e => e.1 != k)

/-- Go `v, ok := m[k]`, as an option. -/
def Dispatch.get? (m : Dispatch) (k : GoString) : Option Token :=
  (m.find? (fun e => e.1 == k)).map (fun e => e.2)

/-- Go `setUpDispatch`, on an explicit table. -/
def setUpDispatch (dispatch : Dispatch) : Dispatch :=
  let dispatch := dispatch.set (str "EOF") Token.EOF
  let dispatch := dispatch.set (str "INVTOK") Token.INVTOK
  let dispatch := dispatch.set (str "ADD") Token.ADD
  let dispatch := dispatch.set (str "SUB") Token.SUB
  let dispatch := dispatch.set (str "MUL") Token.MUL
  let dispatch := dispatch.set (str "DIV") Token.DIV
  let dispatch := dispatch.set (str "PRINT") Token.PRINT
  let dispatch := dispatch.set (str "ASSIGN") Token.ASSIGN
  let dispatch := dispatch.set (str "REFERENCE") Token.REFERENCE
  let dispatch := dispatch.set (str "DECLARE") Token.DECLARE
  let dispatch := dispatch.set (str "WS") Token.WS
  let dispatch := dispatch.set (str "LBRACKET") Token.LBRACKET
  let dispatch := dispatch.set (str "RBRACKET") Token.RBRACKET
  let dispatch := dispatch.set (str "INT") Token.INT
  let dispatch := dispatch.set (str "FLOAT") Token.FLOAT
  dispatch

/-- The keyword table as `main` leaves it before scanning. -/
def keywords : Dispatch := setUpDispatch Dispatch.empty

/-! ## The buffered reader

`bufio.Reader` over a `strings.Reader`, restricted to `ReadByte` and
`UnreadByte`.  `ReadByte` returns the next byte and records it in `lastByte`;
at end of input it fails and leaves `lastByte` as it was.  `UnreadByte` puts
`lastByte` back in front of the unread bytes and clears it; with no recorded
byte it fails and changes nothing. -/

/-- The observable state of the `bufio.Reader`. -/
structure Reader where
  /-- The bytes not yet read. -/
  rest : List Byte
  /-- The field `lastByte` of `bufio.Reader` (`none` stands for `-1`). -/
  lastByte : Option Byte
  deriving DecidableEq, Repr

/-- Go `bufio.NewReader(strings.NewReader(s))`. -/
def Reader.new (s : GoString) : Reader :=
  { rest := s, lastByte := none }

/-- Go `(*bufio.Reader).ReadByte`; `none` is the error result (`io.EOF`). -/
def Reader.ReadByte (r : Reader) : Option Byte × Reader :=
  match r.rest with
  | [] => (none, r)
  | c :: cs => (some c, { rest := cs, lastByte := some c })

/-- Go `(*bufio.Reader).UnreadByte`; the error result is discarded by the caller. -/
def Reader.UnreadByte (r : Reader) : Reader :=
  match r.lastByte with
  | none => r
  | some c => { rest := c :: r.rest, lastByte := none }

/-! ## The lexer state (`lang.go` lines 78-102) -/

/-- Go `struct Lexer`, extended with the bytes written to standard output. -/
structure Lexer where
  reader : Reader
  char : Byte
  positionIdx : Int
  tokens : List GoString
  buffer : List Byte
  /-- Everything `fmt.Printf` has written so far. -/
  stdout : List Byte
  deriving DecidableEq, Repr

/-- What can stop a run before it returns. -/
inductive Fault where
  /-- The run-time panic `index out of range`. -/
  | indexOutOfRange
  /-- The step budget of a loop ran out (shown never to happen). -/
  | outOfFuel
  deriving DecidableEq, Repr

deriving instance DecidableEq for Except

/-- Go `NewLexer`: `char: 0, positionIdx: -1`, empty token list, nil buffer. -/
def NewLexer (s : GoString) : Lexer :=
  { reader := Reader.new s, char := 0, positionIdx := -1, tokens := [], buffer := [],
    stdout := [] }

/-- Go `Lexer.advance`. -/
def Lexer.advance (l : Lexer) : Lexer :=
  match l.reader.ReadByte with
  | (none, r) => { l with reader := r, positionIdx := l.positionIdx + 1, char := 0 }
  | (some c, r) => { l with reader := r, positionIdx := l.positionIdx + 1, char := c }

/-- Go `Lexer.unAdvance`. -/
def Lexer.unAdvance (l : Lexer) : Lexer :=
  { l with
    reader := l.reader.UnreadByte
    buffer := if l.buffer.length ≠ 0 then l.buffer.take (l.buffer.length - 1) else l.buffer
    positionIdx := l.positionIdx - 1 }

/-! ## The scanner (`lang.go` lines 104-248) -/

/-- The loop of Go `Lexer.scanThroughWhiteSpace`. -/
def scanThroughWhiteSpaceLoop : Nat → Lexer → Except Fault Lexer
  | 0, _ => .error .outOfFuel
  | fuel + 1, l =>
    let l := l.advance
    if l.char = 0 then
      let l := { l with tokens := l.tokens ++ [str "WS"] }
      .ok { l with tokens := l.tokens ++ [str "EOF"] }
    else if !isWhiteSpace l.char then
      let l := l.unAdvance
      .ok { l with tokens := l.tokens ++ [str "WS"] }
    else
      scanThroughWhiteSpaceLoop fuel l

/-- Go `Lexer.scanThroughWhiteSpace`. -/
def Lexer.scanThroughWhiteSpace (l : Lexer) : Except Fault Lexer :=
  scanThroughWhiteSpaceLoop (l.reader.rest.length + 1) l

/-- The numeric descriptor of `scanDigit`: `"INT:"+string(l.buffer)` when
`dots == 0`, `"FLOAT:"+string(l.buffer)` otherwise. -/
def numberToken (dots : Nat) (buffer : List Byte) : GoString :=
  if dots = 0 then str "INT:" ++ buffer else str "FLOAT:" ++ buffer

/-- The statement `if dots == 0 { append INT } else { append FLOAT }` of `scanDigit`. -/
def Lexer.appendNumber (dots : Nat) (l : Lexer) : Lexer :=
  { l with tokens := l.tokens ++ [numberToken dots l.buffer] }

/-- The update `if l.char == '.' && dots == 0 { dots++ }` of `scanDigit`. -/
def nextDots (char : Byte) (dots : Nat) : Nat :=
  if char = 46 ∧ dots = 0 then dots + 1 else dots

/-- The loop of Go `Lexer.scanDigit`; `dots` is the local variable of that name. -/
def scanDigitLoop : Nat → Nat → Lexer → Except Fault Lexer
  | 0, _, _ => .error .outOfFuel
  | fuel + 1, dots, l =>
    let l := l.advance
    let l := { l with buffer := l.buffer ++ [l.char] }
    let dots := nextDots l.char dots
    if l.char = 0 then
      let l := l.unAdvance
      let l := l.appendNumber dots
      .ok { l with tokens := l.tokens ++ [str "EOF"] }
    else if !isDigit l.char && l.char != 46 then
      let l := if l.buffer.length ≠ 0 then
          { l with buffer := l.buffer.take (l.buffer.length - 1) } else l
      let l := l.appendNumber dots
      if isWhiteSpace l.char then
        let l := { l with buffer := [] }
        l.scanThroughWhiteSpace
      else
        .ok l
    else
      scanDigitLoop fuel dots l

/-- Go `Lexer.scanDigit`. -/
def Lexer.scanDigit (l : Lexer) : Except Fault Lexer :=
  scanDigitLoop (l.reader.rest.length + 1) 0 l

/-- The `switch string(l.buffer)` of Go `Lexer.parseTokName`, on the buffer. -/
def tokName (buffer : List Byte) : GoString :=
  if buffer = str "EOF" then str "EOF"
  else if buffer = str "INVTOK" then str "INVTOK"
  else if buffer = str "+" then str "ADD"
  else if buffer = str "-" then str "SUB"
  else if buffer = str "*" then str "MUL"
  else if buffer = str "PRINT" then str "PRINT"
  else if buffer = str "=" then str "ASSIGN"
  else if buffer = str " " then str "WS"
  else if buffer = str "(" then str "LBRACKET"
  else if buffer = str ")" then str "RBRACKET"
  else buffer

/-- Go `Lexer.parseTokName`. -/
def Lexer.parseTokName (l : Lexer) : GoString :=
  tokName l.buffer

/-- Go `Lexer.appendIdentifier`, reading the global table `dispatch`.  The index
expression `l.buffer[0]` panics on an empty buffer. -/
def Lexer.appendIdentifier (dispatch : Dispatch) (l : Lexer) : Except Fault Lexer :=
  match l.buffer with
  | [] => .error .indexOutOfRange
  | b0 :: _ =>
    if b0 = 36 then
      let varName := l.buffer.drop 1
      .ok { l with tokens := l.tokens ++ [str "REFERENCE:" ++ varName] }
    else if b0 = 64 then
      let varName := l.buffer.drop 1
      .ok { l with tokens := l.tokens ++ [str "DECLARE:" ++ varName] }
    else
      let buf := l.parseTokName
      if (dispatch.get? buf).isSome then
        .ok { l with tokens := l.tokens ++ [buf] }
      else
        let l := { l with stdout := l.stdout ++ (buf ++ str "\n") }
        .ok { l with tokens := l.tokens ++ [str "INVTOK"] }

/-- The guarded flush `if len(l.buffer) != 0 { l.appendIdentifier() }`. -/
def Lexer.flushIfPending (dispatch : Dispatch) (l : Lexer) : Except Fault Lexer :=
  if l.buffer.length ≠ 0 then l.appendIdentifier dispatch else .ok l

/-- The last statement of the loop body of `scan` (lines 239-246), followed by
the next iteration `next` when it does not break. -/
def scanTail (dispatch : Dispatch) (next : Lexer → Except Fault Lexer) (l : Lexer) :
    Except Fault Lexer :=
  if l.char = 0 then
    match (if l.buffer.length ≠ 0 then l.unAdvance.appendIdentifier dispatch else .ok l) with
    | .error e => .error e
    | .ok l => .ok { l with tokens := l.tokens ++ [str "EOF"] }
  else
    next l

/-- The loop of Go `Lexer.scan`. -/
def scanLoop (dispatch : Dispatch) : Nat → Lexer → Except Fault Lexer
  | 0, _ => .error .outOfFuel
  | fuel + 1, l =>
    let l := l.advance
    if isWhiteSpace l.char then
      match l.flushIfPending dispatch with
      | .error e => .error e
      | .ok l =>
        let l := { l with buffer := [] }
        match l.scanThroughWhiteSpace with
        | .error e => .error e
        | .ok l =>
          if l.char = 0 then .ok l
          else scanTail dispatch (scanLoop dispatch fuel) l
    else if isDigit l.char then
      let l := l.unAdvance
      match l.flushIfPending dispatch with
      | .error e => .error e
      | .ok l =>
        let l := { l with buffer := [] }
        match l.scanDigit with
        | .error e => .error e
        | .ok l =>
          if l.char = 0 then .ok l
          else
            let l := { l with buffer := [] }
            scanTail dispatch (scanLoop dispatch fuel) l
    else
      let l := { l with buffer := l.buffer ++ [l.char] }
      scanTail dispatch (scanLoop dispatch fuel) l

/-- Go `Lexer.scan`. -/
def Lexer.scan (dispatch : Dispatch) (l : Lexer) : Except Fault Lexer :=
  scanLoop dispatch (l.reader.rest.length + 1) l

/-- The scanning part of `main` (lines 271-274): `setUpDispatch()`, `NewLexer`,
`l.scan()`; the result is the final lexer state. -/
def scanSource (src : GoString) : Except Fault Lexer :=
  (NewLexer src).scan keywords

/-- The token list `l.tokens` after scanning `src`, or the fault that stopped it. -/
def scanTokens (src : GoString) : Except Fault (List GoString) :=
  match scanSource src with
  | .error e => .error e
  | .ok l => .ok l.tokens

/-- The bytes written to standard output while scanning `src`. -/
def scanOutput (src : GoString) : Except Fault (List Byte) :=
  match scanSource src with
  | .error e => .error e
  | .ok l => .ok l.stdout

/-- Go `Lexer.String` (lines 255-262): `out = l.tokens[0]`, then for every later
index `out += ", "` and `out += l.tokens[i]`.  The index expression
`l.tokens[0]` panics on an empty token list. -/
def Lexer.String (l : Lexer) : Except Fault GoString :=
  match l.tokens with
  | [] => .error .indexOutOfRange
  | t0 :: ts => .ok (ts.foldl (fun out t => out ++ str ", " ++ t) t0)

/-! ## Derived notions used in the statements -/

/-- The buffer texts that the flush recognises: the operators, the space, the
keyword `PRINT` and the tag names registered by `setUpDispatch`. -/
def recognisedTexts : List GoString :=
  [str "+", str "-", str "*", str "=", str "(", str ")", str " ", str "PRINT",
   str "EOF", str "INVTOK", str "ADD", str "SUB", str "MUL", str "DIV", str "ASSIGN",
   str "REFERENCE", str "DECLARE", str "WS", str "LBRACKET", str "RBRACKET", str "INT",
   str "FLOAT"]


/-- The descriptor that `appendIdentifier` appends for the buffer text `buf`
(meaningful for a non-empty `buf`). -/
def identToken (dispatch : Dispatch) (buf : List Byte) : GoString :=
  match buf with
  | [] => []
  | b0 :: tl =>
    if b0 = 36 then str "REFERENCE:" ++ tl
    else if b0 = 64 then str "DECLARE:" ++ tl
    else if (dispatch.get? (tokName (b0 :: tl))).isSome then tokName (b0 :: tl)
    else str "INVTOK"

/-- The bytes that `appendIdentifier` prints for the buffer text `buf`. -/
def identOutput (dispatch : Dispatch) (buf : List Byte) : List Byte :=
  match buf with
  | [] => []
  | b0 :: tl =>
    if b0 = 36 then []
    else if b0 = 64 then []
    else if (dispatch.get? (tokName (b0 :: tl))).isSome then []
    else tokName (b0 :: tl) ++ str "\n"

/-- The descriptors appended by the guarded flush of the buffer text `buf`. -/
def pendingTokens (dispatch : Dispatch) (buf : List Byte) : List GoString :=
  if buf = [] then [] else [identToken dispatch buf]

/-- The token list that a flush (`appendIdentifier`) of the text `t` produces on
a lexer that has no tokens yet. -/
def flushTokens (dispatch : Dispatch) (t : List Byte) : Except Fault (List GoString) :=
  match Lexer.appendIdentifier dispatch { NewLexer [] with buffer := t } with
  | .error e => .error e
  | .ok l => .ok l.tokens

/-- What a caller of `scan` observes of a run: the tokens and the printed bytes. -/
def observe (r : Except Fault Lexer) : Except Fault (List GoString × List Byte) :=
  match r with
  | .error e => .error e
  | .ok l => .ok (l.tokens, l.stdout)

/-- The value of the local `dots` of `scanDigit` after the bytes `run` were read,
when it was `dots` before. -/
def dotsAfter (run : List Byte) (dots : Nat) : Nat :=
  run.foldl (fun dts c => nextDots c dts) dots

/-- Two unread inputs that agree, or that differ only in that the second has the
extra whitespace byte `w'` right after an occurrence of the byte `w`. -/
def RestRel (w w' : Byte) (r1 r2 : List Byte) : Prop :=
  r1 = r2 ∨ ∃ x y, r1 = x ++ w :: y ∧ r2 = x ++ w :: w' :: y

/-- Two lexer states as two related runs leave a loop: same `char`, tokens and
output and, unless the sentinel was read, same buffer and related unread input. -/
def OutRel (w w' : Byte) (a b : Lexer) : Prop :=
  a.char = b.char ∧ a.tokens = b.tokens ∧ a.stdout = b.stdout ∧
    (a.char ≠ 0 → a.buffer = b.buffer ∧ RestRel w w' a.reader.rest b.reader.rest)

/-! ## The scanner as a one-pass automaton, and notions for the later claims -/

/-- Where the scanner stands between two bytes of the input. -/
inductive Mode where
  /-- At the head of the loop of `scan`, with the pending buffer. -/
  | main (buf : List Byte)
  /-- Inside the loop of `scanDigit`, with its `dots` and the buffer. -/
  | digit (dots : Nat) (buf : List Byte)
  /-- Inside the loop of `scanThroughWhiteSpace` (the buffer is empty). -/
  | white

/-- The end of input met at the head of the loop of `scan`: the buffer is flushed
and `EOF` appended; an empty buffer is the panic of `appendIdentifier`. -/
def flushAtEnd (d : Dispatch) (buf : List Byte) (toks : List GoString) (out : List Byte) :
    Except Fault (List GoString × List Byte) :=
  match buf with
  | [] => .error .indexOutOfRange
  | b0 :: tl => .ok (toks ++ [identToken d (b0 :: tl)] ++ [str "EOF"], out ++ identOutput d (b0 :: tl))

/-- The mode after the non-NUL byte `c` was read in mode `m`. -/
def Mode.next (m : Mode) (c : Byte) : Mode :=
  match m with
  | .main buf =>
    if isWhiteSpace c then .white
    else if isDigit c then .digit (nextDots c 0) [c]
    else .main (buf ++ [c])
  | .digit dots buf =>
    if isDigit c = true ∨ c = 46 then .digit (nextDots c dots) (buf ++ [c])
    else if isWhiteSpace c then .white
    else .main []
  | .white =>
    if isWhiteSpace c then .white
    else if isDigit c then .digit (nextDots c 0) [c]
    else .main [c]

/-- The descriptors appended when the non-NUL byte `c` is read in mode `m`. -/
def Mode.emit (d : Dispatch) (m : Mode) (c : Byte) : List GoString :=
  match m with
  | .main buf =>
    if isWhiteSpace c then pendingTokens d buf
    else if isDigit c then pendingTokens d buf.dropLast
    else []
  | .digit dots buf =>
    if isDigit c = true ∨ c = 46 then [] else [numberToken dots buf]
  | .white =>
    if isWhiteSpace c then [] else [str "WS"]

/-- The bytes printed when the non-NUL byte `c` is read in mode `m`. -/
def Mode.print (d : Dispatch) (m : Mode) (c : Byte) : List Byte :=
  match m with
  | .main buf =>
    if isWhiteSpace c then identOutput d buf
    else if isDigit c then identOutput d buf.dropLast
    else []
  | .digit _ _ => []
  | .white => []

/-- What happens when the sentinel (end of input or a NUL byte) is read in mode `m`. -/
def Mode.finish (d : Dispatch) (m : Mode) (toks : List GoString) (out : List Byte) :
    Except Fault (List GoString × List Byte) :=
  match m with
  | .main buf => flushAtEnd d buf toks out
  | .digit dots buf => .ok (toks ++ [numberToken dots buf] ++ [str "EOF"], out)
  | .white => .ok (toks ++ [str "WS"] ++ [str "EOF"], out)

/-- The scanner as a one-pass automaton over the unread bytes: every byte is
consumed once, and the mode records in which loop of the program the byte is
read.  The program computes this function (`lexFrom_refines`). -/
def lexFrom (d : Dispatch) :
    List Byte → Mode → List GoString → List Byte → Except Fault (List GoString × List Byte)
  | [], m, toks, out => m.finish d toks out
  | c :: rs, m, toks, out =>
    if c = 0 then m.finish d toks out
    else lexFrom d rs (m.next c) (toks ++ m.emit d c) (out ++ m.print d c)

/-- A byte that ends a digit run and is dropped: neither whitespace, nor a
digit, nor a point. -/
def isTerminator (c : Byte) : Prop :=
  isWhiteSpace c = false ∧ isDigit c = false ∧ c ≠ 46

/-- The input is a (possibly empty) sequence of digits and points followed by
one last byte that is a terminator. -/
def RunThenLast (rest : List Byte) : Prop :=
  ∃ s c, rest = s ++ [c] ∧ (∀ b ∈ s, isDigit b = true ∨ b = 46) ∧ isTerminator c

/-- The claimed failure shape of a non-empty input: the last byte is neither
whitespace, a digit nor a point, and it is immediately preceded by a block of
digits and points that contains at least one digit. -/
def EndsAfterDigitBlock (src : List Byte) : Prop :=
  ∃ pre blk c, src = pre ++ blk ++ [c] ∧ (∀ b ∈ blk, isDigit b = true ∨ b = 46) ∧
    (∃ b ∈ blk, isDigit b = true) ∧ isTerminator c

/-- The inputs on which the automaton started in mode `m` ends in the panic. -/
def FailsFrom (m : Mode) (rest : List Byte) : Prop :=
  match m with
  | .main buf => (rest = [] ∧ buf = []) ∨ EndsAfterDigitBlock rest
  | .digit _ _ => RunThenLast rest ∨ EndsAfterDigitBlock rest
  | .white => EndsAfterDigitBlock rest

/-- The shape of a descriptor as a numeric token: if it is `INT:p`, then `p` is a
non-empty sequence of digits; if it is `FLOAT:p`, then `p` starts with a digit,
consists of digits and points and has a point.  No payload byte is NUL. -/
def NumericShape (tok : GoString) : Prop :=
  (∀ p, tok = str "INT:" ++ p → p ≠ [] ∧ ∀ b ∈ p, isDigit b = true ∧ b ≠ 0) ∧
    (∀ p, tok = str "FLOAT:" ++ p →
      (∃ dg s, p = dg :: s ∧ isDigit dg = true) ∧
        (∀ b ∈ p, (isDigit b = true ∨ b = 46) ∧ b ≠ 0) ∧ (46 : Byte) ∈ p)

/-- The buffer of `scanDigit` while a run is read: it starts with a digit, holds
digits and points only, and `dots` is zero exactly when it has no point. -/
def RunBuffer (dots : Nat) (buf : List Byte) : Prop :=
  (∃ dg s, buf = dg :: s ∧ isDigit dg = true) ∧ (∀ b ∈ buf, isDigit b = true ∨ b = 46) ∧
    (dots = 0 ↔ (46 : Byte) ∉ buf)

/-- The invariant of the modes for `NumericShape`. -/
def ShapeInv (m : Mode) (_rest : List Byte) : Prop :=
  match m with
  | .digit dots buf => RunBuffer dots buf
  | _ => True

/-- The word `DIV` does not occur in `l` as consecutive bytes. -/
def NoDivWord (l : List Byte) : Prop :=
  ¬ (str "DIV" <:+: l)

/-- The invariant of the modes for the absence of the word `DIV`. -/
def NoDivInv (m : Mode) (rest : List Byte) : Prop :=
  match m with
  | .main buf => NoDivWord (buf ++ rest)
  | _ => NoDivWord rest

/-- The word `EOF` does not occur in `l` as consecutive bytes. -/
def NoEofWord (l : List Byte) : Prop :=
  ¬ (str "EOF" <:+: l)

/-- The invariant of the modes for the absence of the word `EOF`. -/
def NoEofInv (m : Mode) (rest : List Byte) : Prop :=
  match m with
  | .main buf => NoEofWord (buf ++ rest)
  | _ => NoEofWord rest

/-- The continuation of the loop of `scan` after one of the inner loops returned. -/
def resume (d : Dispatch) (k : Nat) (r : Except Fault Lexer) : Except Fault Lexer :=
  match r with
  | .error e => .error e
  | .ok a => if a.char = 0 then .ok a else scanLoop d k { a with buffer := [] }

/-! ## Basic facts about bytes and buffers -/

set_option maxRecDepth 100000 in
theorem ws_ne_zero : ∀ c : Byte, isWhiteSpace c = true → c ≠ 0 := by decide

set_option maxRecDepth 100000 in
theorem ws_not_digit : ∀ c : Byte, isWhiteSpace c = true → isDigit c = false := by decide

set_option maxRecDepth 100000 in
theorem ws_ne_dot : ∀ c : Byte, isWhiteSpace c = true → c ≠ 46 := by decide

set_option maxRecDepth 100000 in
theorem digit_ne_zero : ∀ c : Byte, isDigit c = true → c ≠ 0 := by decide

set_option maxRecDepth 100000 in
theorem digit_not_ws : ∀ c : Byte, isDigit c = true → isWhiteSpace c = false := by decide

set_option maxRecDepth 100000 in
theorem digit_ne_dot : ∀ c : Byte, isDigit c = true → c ≠ 46 := by decide

theorem trim_eq_dropLast (buf : List Byte) :
    (if buf.length ≠ 0 then buf.take (buf.length - 1) else buf) = buf.dropLast := by
  cases buf with
  | nil => simp
  | cons a t => simp [List.dropLast_eq_take]

theorem trim_concat (buf : List Byte) (c : Byte) :
    (buf ++ [c]).take ((buf ++ [c]).length - 1) = buf := by
  simp

/-! ## One iteration of each loop, by the shape of the unread input -/

theorem ws_nil (n : Nat) (lb : Option Byte) (ch : Byte) (pos : Int) (toks : List GoString)
    (buf out : List Byte) :
    scanThroughWhiteSpaceLoop (n + 1) ⟨⟨[], lb⟩, ch, pos, toks, buf, out⟩ =
      .ok ⟨⟨[], lb⟩, 0, pos + 1, toks ++ [str "WS"] ++ [str "EOF"], buf, out⟩ := by
  simp [scanThroughWhiteSpaceLoop, Lexer.advance, Reader.ReadByte]

theorem ws_zero (n : Nat) (rs : List Byte) (lb : Option Byte) (ch : Byte) (pos : Int)
    (toks : List GoString) (buf out : List Byte) :
    scanThroughWhiteSpaceLoop (n + 1) ⟨⟨0 :: rs, lb⟩, ch, pos, toks, buf, out⟩ =
      .ok ⟨⟨rs, some 0⟩, 0, pos + 1, toks ++ [str "WS"] ++ [str "EOF"], buf, out⟩ := by
  simp [scanThroughWhiteSpaceLoop, Lexer.advance, Reader.ReadByte]

theorem ws_space (n : Nat) (c : Byte) (hc : isWhiteSpace c = true) (rs : List Byte)
    (lb : Option Byte) (ch : Byte) (pos : Int) (toks : List GoString) (buf out : List Byte) :
    scanThroughWhiteSpaceLoop (n + 1) ⟨⟨c :: rs, lb⟩, ch, pos, toks, buf, out⟩ =
      scanThroughWhiteSpaceLoop n ⟨⟨rs, some c⟩, c, pos + 1, toks, buf, out⟩ := by
  simp [scanThroughWhiteSpaceLoop, Lexer.advance, Reader.ReadByte, hc, ws_ne_zero c hc]

theorem ws_other (n : Nat) (c : Byte) (hc : isWhiteSpace c = false) (h0 : c ≠ 0)
    (rs : List Byte) (lb : Option Byte) (ch : Byte) (pos : Int) (toks : List GoString)
    (buf out : List Byte) :
    scanThroughWhiteSpaceLoop (n + 1) ⟨⟨c :: rs, lb⟩, ch, pos, toks, buf, out⟩ =
      .ok ⟨⟨c :: rs, none⟩, c, pos, toks ++ [str "WS"], buf.dropLast, out⟩ := by
  simp only [scanThroughWhiteSpaceLoop, Lexer.advance, Reader.ReadByte, Lexer.unAdvance,
    Reader.UnreadByte, trim_eq_dropLast]
  simp [hc, h0]

theorem dg_nil (n dots : Nat) (lb : Option Byte) (ch : Byte) (pos : Int)
    (toks : List GoString) (buf out : List Byte) :
    scanDigitLoop (n + 1) dots ⟨⟨[], lb⟩, ch, pos, toks, buf, out⟩ =
      .ok ⟨Reader.UnreadByte ⟨[], lb⟩, 0, pos,
        toks ++ [numberToken dots buf] ++ [str "EOF"], buf, out⟩ := by
  simp [scanDigitLoop, Lexer.advance, Reader.ReadByte, Lexer.unAdvance, Lexer.appendNumber,
    nextDots]

theorem dg_zero (n dots : Nat) (rs : List Byte) (lb : Option Byte) (ch : Byte) (pos : Int)
    (toks : List GoString) (buf out : List Byte) :
    scanDigitLoop (n + 1) dots ⟨⟨0 :: rs, lb⟩, ch, pos, toks, buf, out⟩ =
      .ok ⟨⟨0 :: rs, none⟩, 0, pos,
        toks ++ [numberToken dots buf] ++ [str "EOF"], buf, out⟩ := by
  simp [scanDigitLoop, Lexer.advance, Reader.ReadByte, Lexer.unAdvance, Lexer.appendNumber,
    nextDots, Reader.UnreadByte]

theorem dg_run (n dots : Nat) (c : Byte) (hc : isDigit c = true ∨ c = 46) (rs : List Byte)
    (lb : Option Byte) (ch : Byte) (pos : Int) (toks : List GoString) (buf out : List Byte) :
    scanDigitLoop (n + 1) dots ⟨⟨c :: rs, lb⟩, ch, pos, toks, buf, out⟩ =
      scanDigitLoop n (nextDots c dots) ⟨⟨rs, some c⟩, c, pos + 1, toks, buf ++ [c], out⟩ := by
  rcases hc with hc | hc
  · simp [scanDigitLoop, Lexer.advance, Reader.ReadByte, hc, digit_ne_zero c hc]
  · subst hc
    simp [scanDigitLoop, Lexer.advance, Reader.ReadByte]

theorem dg_space (n dots : Nat) (c : Byte) (hc : isWhiteSpace c = true) (rs : List Byte)
    (lb : Option Byte) (ch : Byte) (pos : Int) (toks : List GoString) (buf out : List Byte) :
    scanDigitLoop (n + 1) dots ⟨⟨c :: rs, lb⟩, ch, pos, toks, buf, out⟩ =
      Lexer.scanThroughWhiteSpace
        ⟨⟨rs, some c⟩, c, pos + 1, toks ++ [numberToken dots buf], [], out⟩ := by
  simp [scanDigitLoop, Lexer.advance, Reader.ReadByte, Lexer.appendNumber, nextDots, hc,
    ws_ne_zero c hc, ws_not_digit c hc, ws_ne_dot c hc]

theorem dg_other (n dots : Nat) (c : Byte) (hw : isWhiteSpace c = false)
    (hd : isDigit c = false) (hdot : c ≠ 46) (h0 : c ≠ 0) (rs : List Byte)
    (lb : Option Byte) (ch : Byte) (pos : Int) (toks : List GoString) (buf out : List Byte) :
    scanDigitLoop (n + 1) dots ⟨⟨c :: rs, lb⟩, ch, pos, toks, buf, out⟩ =
      .ok ⟨⟨rs, some c⟩, c, pos + 1, toks ++ [numberToken dots buf], buf, out⟩ := by
  simp [scanDigitLoop, Lexer.advance, Reader.ReadByte, Lexer.appendNumber, nextDots, hw, hd,
    hdot, h0]

theorem appendIdentifier_nil (d : Dispatch) (r : Reader) (ch : Byte) (pos : Int)
    (toks : List GoString) (out : List Byte) :
    Lexer.appendIdentifier d ⟨r, ch, pos, toks, [], out⟩ = .error .indexOutOfRange := by
  simp [Lexer.appendIdentifier]

theorem appendIdentifier_cons (d : Dispatch) (r : Reader) (ch : Byte) (pos : Int)
    (toks : List GoString) (b0 : Byte) (tl out : List Byte) :
    Lexer.appendIdentifier d ⟨r, ch, pos, toks, b0 :: tl, out⟩ =
      .ok ⟨r, ch, pos, toks ++ [identToken d (b0 :: tl)], b0 :: tl,
        out ++ identOutput d (b0 :: tl)⟩ := by
  simp only [Lexer.appendIdentifier, identToken, identOutput, Lexer.parseTokName]
  split_ifs <;> simp

theorem appendIdentifier_ne_nil (d : Dispatch) (r : Reader) (ch : Byte) (pos : Int)
    (toks : List GoString) (buf out : List Byte) (h : buf ≠ []) :
    Lexer.appendIdentifier d ⟨r, ch, pos, toks, buf, out⟩ =
      .ok ⟨r, ch, pos, toks ++ [identToken d buf], buf, out ++ identOutput d buf⟩ := by
  cases buf with
  | nil => exact absurd rfl h
  | cons b0 tl => exact appendIdentifier_cons d r ch pos toks b0 tl out

theorem flushIfPending_eq (d : Dispatch) (r : Reader) (ch : Byte) (pos : Int)
    (toks : List GoString) (buf out : List Byte) :
    Lexer.flushIfPending d ⟨r, ch, pos, toks, buf, out⟩ =
      .ok ⟨r, ch, pos, toks ++ pendingTokens d buf, buf, out ++ identOutput d buf⟩ := by
  cases buf with
  | nil => simp [Lexer.flushIfPending, pendingTokens, identOutput]
  | cons b0 tl =>
    simp [Lexer.flushIfPending, pendingTokens, appendIdentifier_cons]

theorem main_nil (d : Dispatch) (n : Nat) (lb : Option Byte) (ch : Byte) (pos : Int)
    (toks : List GoString) (buf out : List Byte) :
    scanLoop d (n + 1) ⟨⟨[], lb⟩, ch, pos, toks, buf, out⟩ =
      match Lexer.appendIdentifier d ⟨Reader.UnreadByte ⟨[], lb⟩, 0, pos, toks, buf, out⟩
      with
      | .error e => .error e
      | .ok l => .ok { l with tokens := l.tokens ++ [str "EOF"] } := by
  simp [scanLoop, scanTail, Lexer.advance, Reader.ReadByte, Lexer.unAdvance, isWhiteSpace,
    isDigit]

theorem main_zero (d : Dispatch) (n : Nat) (rs : List Byte) (lb : Option Byte) (ch : Byte)
    (pos : Int) (toks : List GoString) (buf out : List Byte) :
    scanLoop d (n + 1) ⟨⟨0 :: rs, lb⟩, ch, pos, toks, buf, out⟩ =
      match Lexer.appendIdentifier d ⟨⟨0 :: rs, none⟩, 0, pos, toks, buf, out⟩ with
      | .error e => .error e
      | .ok l => .ok { l with tokens := l.tokens ++ [str "EOF"] } := by
  simp [scanLoop, scanTail, Lexer.advance, Reader.ReadByte, Lexer.unAdvance, isWhiteSpace,
    isDigit, Reader.UnreadByte]

theorem main_space (d : Dispatch) (n : Nat) (c : Byte) (hc : isWhiteSpace c = true)
    (rs : List Byte) (lb : Option Byte) (ch : Byte) (pos : Int) (toks : List GoString)
    (buf out : List Byte) :
    scanLoop d (n + 1) ⟨⟨c :: rs, lb⟩, ch, pos, toks, buf, out⟩ =
      match Lexer.scanThroughWhiteSpace
        ⟨⟨rs, some c⟩, c, pos + 1, toks ++ pendingTokens d buf, [], out ++ identOutput d buf⟩
      with
      | .error e => .error e
      | .ok l => if l.char = 0 then .ok l else scanLoop d n l := by
  simp only [scanLoop, Lexer.advance, Reader.ReadByte, hc, if_true, flushIfPending_eq]
  cases Lexer.scanThroughWhiteSpace
    ⟨⟨rs, some c⟩, c, pos + 1, toks ++ pendingTokens d buf, [], out ++ identOutput d buf⟩ with
  | error e => rfl
  | ok l =>
    by_cases h : l.char = 0
    · simp [h]
    · simp [h, scanTail]

theorem main_digit (d : Dispatch) (n : Nat) (c : Byte) (hc : isDigit c = true)
    (rs : List Byte) (lb : Option Byte) (ch : Byte) (pos : Int) (toks : List GoString)
    (buf out : List Byte) :
    scanLoop d (n + 1) ⟨⟨c :: rs, lb⟩, ch, pos, toks, buf, out⟩ =
      match Lexer.scanDigit
        ⟨⟨c :: rs, none⟩, c, pos, toks ++ pendingTokens d buf.dropLast, [],
          out ++ identOutput d buf.dropLast⟩
      with
      | .error e => .error e
      | .ok l => if l.char = 0 then .ok l else scanLoop d n { l with buffer := [] } := by
  simp only [scanLoop, Lexer.advance, Reader.ReadByte, hc, digit_not_ws c hc, if_true,
    Lexer.unAdvance, Reader.UnreadByte, trim_eq_dropLast, flushIfPending_eq]
  simp only [Bool.false_eq_true, if_false, add_sub_cancel_right]
  cases Lexer.scanDigit
    ⟨⟨c :: rs, none⟩, c, pos, toks ++ pendingTokens d buf.dropLast, [],
      out ++ identOutput d buf.dropLast⟩ with
  | error e => rfl
  | ok l =>
    by_cases h : l.char = 0
    · simp [h]
    · simp [h, scanTail]

theorem main_other (d : Dispatch) (n : Nat) (c : Byte) (hw : isWhiteSpace c = false)
    (hd : isDigit c = false) (h0 : c ≠ 0) (rs : List Byte) (lb : Option Byte) (ch : Byte)
    (pos : Int) (toks : List GoString) (buf out : List Byte) :
    scanLoop d (n + 1) ⟨⟨c :: rs, lb⟩, ch, pos, toks, buf, out⟩ =
      scanLoop d n ⟨⟨rs, some c⟩, c, pos + 1, toks, buf ++ [c], out⟩ := by
  simp [scanLoop, scanTail, Lexer.advance, Reader.ReadByte, hw, hd, h0]

/-! ## Claim C1: scanning can panic -/

/-- Claim C1 (the code breaks it): on the empty input, and on the input `1+`, the
run of `scan` does not return a token list; it stops with the index-out-of-range
panic of `appendIdentifier`, reached with an empty buffer. -/
theorem scan_empty_input_panics :
    scanTokens [] = .error .indexOutOfRange ∧
      scanTokens (str "1+") = .error .indexOutOfRange := by
  decide

/-! ## Claim C2: the last token -/

theorem ws_loop_last (n : Nat) :
    ∀ (l r : Lexer), scanThroughWhiteSpaceLoop n l = .ok r → r.char = 0 →
      r.tokens.getLast? = some (str "EOF") := by
  induction n with
  | zero => intro l r h; simp [scanThroughWhiteSpaceLoop] at h
  | succ n ih =>
    intro l r h hc
    obtain ⟨⟨rest, lb⟩, ch, pos, toks, buf, out⟩ := l
    cases rest with
    | nil =>
      rw [ws_nil] at h
      simp only [Except.ok.injEq] at h
      subst h
      simp
    | cons c rs =>
      by_cases h0 : c = 0
      · subst h0
        rw [ws_zero] at h
        simp only [Except.ok.injEq] at h
        subst h
        simp
      · by_cases hw : isWhiteSpace c = true
        · rw [ws_space _ _ hw] at h
          exact ih _ _ h hc
        · rw [ws_other _ _ (by simpa using hw) h0] at h
          simp only [Except.ok.injEq] at h
          subst h
          exact absurd hc h0

theorem digit_loop_last (n : Nat) :
    ∀ (dots : Nat) (l r : Lexer), scanDigitLoop n dots l = .ok r → r.char = 0 →
      r.tokens.getLast? = some (str "EOF") := by
  induction n with
  | zero => intro dots l r h; simp [scanDigitLoop] at h
  | succ n ih =>
    intro dots l r h hc
    obtain ⟨⟨rest, lb⟩, ch, pos, toks, buf, out⟩ := l
    cases rest with
    | nil =>
      rw [dg_nil] at h
      simp only [Except.ok.injEq] at h
      subst h
      simp
    | cons c rs =>
      by_cases h0 : c = 0
      · subst h0
        rw [dg_zero] at h
        simp only [Except.ok.injEq] at h
        subst h
        simp
      · by_cases hr : isDigit c = true ∨ c = 46
        · rw [dg_run _ _ _ hr] at h
          exact ih _ _ _ h hc
        · by_cases hw : isWhiteSpace c = true
          · rw [dg_space _ _ _ hw] at h
            exact ws_loop_last _ _ _ h hc
          · have hd : isDigit c = false := by
              cases hcd : isDigit c
              · rfl
              · exact absurd (Or.inl hcd) hr
            rw [dg_other _ _ _ (by simpa using hw) hd (fun e => hr (Or.inr e)) h0] at h
            simp only [Except.ok.injEq] at h
            subst h
            exact absurd hc h0

theorem scan_loop_last (d : Dispatch) (n : Nat) :
    ∀ (l r : Lexer), scanLoop d n l = .ok r → r.tokens.getLast? = some (str "EOF") := by
  induction n with
  | zero => intro l r h; simp [scanLoop] at h
  | succ n ih =>
    intro l r h
    obtain ⟨⟨rest, lb⟩, ch, pos, toks, buf, out⟩ := l
    have fin : ∀ (rd : Reader) (p : Int),
        (match Lexer.appendIdentifier d ⟨rd, 0, p, toks, buf, out⟩ with
          | .error e => .error e
          | .ok l => .ok { l with tokens := l.tokens ++ [str "EOF"] }) = Except.ok r →
        r.tokens.getLast? = some (str "EOF") := by
      intro rd p h
      cases buf with
      | nil => simp [appendIdentifier_nil] at h
      | cons b0 tl =>
        simp only [appendIdentifier_cons, Except.ok.injEq] at h
        subst h
        simp
    cases rest with
    | nil =>
      rw [main_nil] at h
      exact fin _ _ h
    | cons c rs =>
      by_cases h0 : c = 0
      · subst h0
        rw [main_zero] at h
        exact fin _ _ h
      · by_cases hw : isWhiteSpace c = true
        · rw [main_space _ _ _ hw] at h
          cases hs : Lexer.scanThroughWhiteSpace
              ⟨⟨rs, some c⟩, c, pos + 1, toks ++ pendingTokens d buf, [],
                out ++ identOutput d buf⟩ with
          | error e => simp [hs] at h
          | ok l =>
            simp only [hs] at h
            by_cases hl : l.char = 0
            · simp only [hl, if_true, Except.ok.injEq] at h
              subst h
              exact ws_loop_last _ _ _ hs hl
            · simp only [hl, if_false] at h
              exact ih _ _ h
        · by_cases hd : isDigit c = true
          · rw [main_digit _ _ _ hd] at h
            cases hs : Lexer.scanDigit
                ⟨⟨c :: rs, none⟩, c, pos, toks ++ pendingTokens d buf.dropLast, [],
                  out ++ identOutput d buf.dropLast⟩ with
            | error e => simp [hs] at h
            | ok l =>
              simp only [hs] at h
              by_cases hl : l.char = 0
              · simp only [hl, if_true, Except.ok.injEq] at h
                subst h
                exact digit_loop_last _ _ _ _ hs hl
              · simp only [hl, if_false] at h
                exact ih _ _ h
          · rw [main_other _ _ _ (by simpa using hw) (by simpa using hd) h0] at h
            exact ih _ _ h

/-- Claim C2, refuted as stated: on the input `EOF ` the run returns a list in
which the descriptor `EOF` occurs twice (the word `EOF` is itself flushed to the
descriptor `EOF`), not exactly once. -/
theorem eof_word_occurs_twice :
    ∃ toks, scanTokens (str "EOF ") = .ok toks ∧ toks.count (str "EOF") = 2 :=
  ⟨[str "EOF", str "WS", str "EOF"], by decide, by decide⟩

/-! ## Claim C3: the scenario `1 + 2` -/

/-- Claim C3, refuted as stated: scanning `1 + 2` does not give the list with a
`WS` descriptor in front of the final `EOF`. -/
theorem scan_one_plus_two_no_trailing_ws :
    scanTokens (str "1 + 2") ≠
      .ok [str "INT:1", str "WS", str "ADD", str "WS", str "INT:2", str "WS", str "EOF"] := by
  decide

/-- Claim C3 (amended): scanning the 5-byte input `1 + 2` with the keyword table
initialised yields exactly `[INT:1, WS, ADD, WS, INT:2, EOF]`. -/
theorem scan_one_plus_two :
    scanTokens (str "1 + 2") =
      .ok [str "INT:1", str "WS", str "ADD", str "WS", str "INT:2", str "EOF"] := by
  decide

/-! ## Claim C4: one `WS` per whitespace run -/

theorem restRel_cases {w w' : Byte} {r1 r2 : List Byte} (h : RestRel w w' r1 r2) :
    (r1 = [] ∧ r2 = []) ∨
      (∃ c rs1 rs2, r1 = c :: rs1 ∧ r2 = c :: rs2 ∧ RestRel w w' rs1 rs2) ∨
      (∃ y, r1 = w :: y ∧ r2 = w :: w' :: y) := by
  rcases h with h | ⟨x, y, h1, h2⟩
  · subst h
    cases r1 with
    | nil => exact Or.inl ⟨rfl, rfl⟩
    | cons c rs => exact Or.inr (Or.inl ⟨c, rs, rs, rfl, rfl, Or.inl rfl⟩)
  · cases x with
    | nil => exact Or.inr (Or.inr ⟨y, by simpa using h1, by simpa using h2⟩)
    | cons c xs =>
      exact Or.inr (Or.inl ⟨c, xs ++ w :: y, xs ++ w :: w' :: y, by simpa using h1,
        by simpa using h2, Or.inr ⟨xs, y, rfl, rfl⟩⟩)

theorem ws_rel {w w' : Byte} (hw : isWhiteSpace w = true) (hw' : isWhiteSpace w' = true)
    (n1 : Nat) :
    ∀ (n2 : Nat) (r1 r2 : List Byte) (lb1 lb2 : Option Byte) (ch1 ch2 : Byte) (p1 p2 : Int)
      (toks : List GoString) (buf out : List Byte),
      RestRel w w' r1 r2 → r1.length < n1 → r2.length < n2 →
      ∃ a b, scanThroughWhiteSpaceLoop n1 ⟨⟨r1, lb1⟩, ch1, p1, toks, buf, out⟩ = .ok a ∧
        scanThroughWhiteSpaceLoop n2 ⟨⟨r2, lb2⟩, ch2, p2, toks, buf, out⟩ = .ok b ∧
        OutRel w w' a b ∧ a.reader.rest.length ≤ r1.length ∧
        b.reader.rest.length ≤ r2.length := by
  induction n1 with
  | zero => intro n2 r1 r2 lb1 lb2 ch1 ch2 p1 p2 toks buf out _ h1; simp at h1
  | succ k1 ih =>
    intro n2 r1 r2 lb1 lb2 ch1 ch2 p1 p2 toks buf out hrel h1 h2
    obtain ⟨k2, rfl⟩ : ∃ k, n2 = k + 1 := ⟨n2 - 1, by omega⟩
    rcases restRel_cases hrel with ⟨e1, e2⟩ | ⟨c, rs1, rs2, e1, e2, hr⟩ | ⟨y, e1, e2⟩
    · subst e1 e2
      exact ⟨_, _, ws_nil .., ws_nil .., by simp [OutRel], by simp, by simp⟩
    · subst e1 e2
      by_cases h0 : c = 0
      · subst h0
        exact ⟨_, _, ws_zero .., ws_zero .., by simp [OutRel], by simp, by simp⟩
      · by_cases hc : isWhiteSpace c = true
        · obtain ⟨a, b, ha, hb, hab, la, lb⟩ :=
            ih k2 rs1 rs2 (some c) (some c) c c (p1 + 1) (p2 + 1) toks buf out hr
              (by simpa using h1) (by simpa using h2)
          refine ⟨a, b, ?_, ?_, hab, ?_, ?_⟩
          · rw [ws_space _ _ hc]; exact ha
          · rw [ws_space _ _ hc]; exact hb
          · simp only [List.length_cons]; omega
          · simp only [List.length_cons]; omega
        · refine ⟨_, _, ws_other _ _ (by simpa using hc) h0 ..,
            ws_other _ _ (by simpa using hc) h0 .., ?_, by simp, by simp⟩
          refine ⟨rfl, rfl, rfl, fun _ => ⟨rfl, ?_⟩⟩
          rcases hr with hr | ⟨x, y, hx, hy⟩
          · exact Or.inl (by simp [hr])
          · exact Or.inr ⟨c :: x, y, by simp [hx], by simp [hy]⟩
    · subst e1 e2
      simp only [List.length_cons] at h1 h2
      obtain ⟨k3, rfl⟩ : ∃ k, k2 = k + 1 := ⟨k2 - 1, by omega⟩
      obtain ⟨a, b, ha, hb, hab, la, lb⟩ :=
        ih k3 y y (some w) (some w') w w' (p1 + 1) (p2 + 1 + 1) toks buf out (Or.inl rfl)
          (by omega) (by omega)
      refine ⟨a, b, ?_, ?_, hab, ?_, ?_⟩
      · rw [ws_space _ _ hw]; exact ha
      · rw [ws_space _ _ hw, ws_space _ _ hw']; exact hb
      · simp only [List.length_cons]; omega
      · simp only [List.length_cons]; omega

theorem ws_absorb {w w' : Byte} (hw : isWhiteSpace w = true) (hw' : isWhiteSpace w' = true)
    (n1 n2 : Nat) (r1 : List Byte) (lb1 lb2 : Option Byte) (ch1 ch2 : Byte) (p1 p2 : Int)
    (toks : List GoString) (buf out : List Byte)
    (h1 : r1.length < n1) (h2 : (w' :: r1).length < n2) :
    ∃ a b, scanThroughWhiteSpaceLoop n1 ⟨⟨r1, lb1⟩, ch1, p1, toks, buf, out⟩ = .ok a ∧
      scanThroughWhiteSpaceLoop n2 ⟨⟨w' :: r1, lb2⟩, ch2, p2, toks, buf, out⟩ = .ok b ∧
      OutRel w w' a b ∧ a.reader.rest.length ≤ r1.length ∧
      b.reader.rest.length ≤ (w' :: r1).length := by
  simp only [List.length_cons] at h2
  obtain ⟨k2, rfl⟩ : ∃ k, n2 = k + 1 := ⟨n2 - 1, by omega⟩
  obtain ⟨a, b, ha, hb, hab, la, lb⟩ :=
    ws_rel hw hw' n1 k2 r1 r1 lb1 (some w') ch1 w' p1 (p2 + 1) toks buf out (Or.inl rfl)
      h1 (by omega)
  refine ⟨a, b, ha, ?_, hab, la, ?_⟩
  · rw [ws_space _ _ hw']; exact hb
  · simp only [List.length_cons]; omega

theorem dg_rel {w w' : Byte} (hw : isWhiteSpace w = true) (hw' : isWhiteSpace w' = true)
    (n1 : Nat) :
    ∀ (n2 dots : Nat) (r1 r2 : List Byte) (lb1 lb2 : Option Byte) (ch1 ch2 : Byte)
      (p1 p2 : Int) (toks : List GoString) (buf out : List Byte),
      RestRel w w' r1 r2 → r1.length < n1 → r2.length < n2 →
      ∃ a b, scanDigitLoop n1 dots ⟨⟨r1, lb1⟩, ch1, p1, toks, buf, out⟩ = .ok a ∧
        scanDigitLoop n2 dots ⟨⟨r2, lb2⟩, ch2, p2, toks, buf, out⟩ = .ok b ∧
        OutRel w w' a b ∧ (a.char ≠ 0 → a.reader.rest.length < r1.length) ∧
        (b.char ≠ 0 → b.reader.rest.length < r2.length) := by
  induction n1 with
  | zero => intro n2 dots r1 r2 lb1 lb2 ch1 ch2 p1 p2 toks buf out _ h1; simp at h1
  | succ k1 ih =>
    intro n2 dots r1 r2 lb1 lb2 ch1 ch2 p1 p2 toks buf out hrel h1 h2
    obtain ⟨k2, rfl⟩ : ∃ k, n2 = k + 1 := ⟨n2 - 1, by omega⟩
    rcases restRel_cases hrel with ⟨e1, e2⟩ | ⟨c, rs1, rs2, e1, e2, hr⟩ | ⟨y, e1, e2⟩
    · subst e1 e2
      exact ⟨_, _, dg_nil .., dg_nil .., by simp [OutRel], by simp, by simp⟩
    · subst e1 e2
      by_cases h0 : c = 0
      · subst h0
        exact ⟨_, _, dg_zero .., dg_zero .., by simp [OutRel], by simp, by simp⟩
      · by_cases hrun : isDigit c = true ∨ c = 46
        · obtain ⟨a, b, ha, hb, hab, la, lb⟩ :=
            ih k2 (nextDots c dots) rs1 rs2 (some c) (some c) c c (p1 + 1) (p2 + 1) toks
              (buf ++ [c]) out hr (by simpa using h1) (by simpa using h2)
          refine ⟨a, b, ?_, ?_, hab, ?_, ?_⟩
          · rw [dg_run _ _ _ hrun]; exact ha
          · rw [dg_run _ _ _ hrun]; exact hb
          · intro h; have := la h; simp only [List.length_cons]; omega
          · intro h; have := lb h; simp only [List.length_cons]; omega
        · by_cases hc : isWhiteSpace c = true
          · obtain ⟨a, b, ha, hb, hab, la, lb⟩ :=
              ws_rel hw hw' (rs1.length + 1) (rs2.length + 1) rs1 rs2 (some c) (some c) c c
                (p1 + 1) (p2 + 1) (toks ++ [numberToken dots buf]) [] out hr
                (by omega) (by omega)
            refine ⟨a, b, ?_, ?_, hab, ?_, ?_⟩
            · rw [dg_space _ _ _ hc]; exact ha
            · rw [dg_space _ _ _ hc]; exact hb
            · intro _; simp only [List.length_cons]; omega
            · intro _; simp only [List.length_cons]; omega
          · have hd : isDigit c = false := by
              cases hcd : isDigit c
              · rfl
              · exact absurd (Or.inl hcd) hrun
            have hdot : c ≠ 46 := fun e => hrun (Or.inr e)
            refine ⟨_, _, dg_other _ _ _ (by simpa using hc) hd hdot h0 ..,
              dg_other _ _ _ (by simpa using hc) hd hdot h0 .., ?_, by simp, by simp⟩
            exact ⟨rfl, rfl, rfl, fun _ => ⟨rfl, hr⟩⟩
    · subst e1 e2
      obtain ⟨a, b, ha, hb, hab, la, lb⟩ :=
        ws_absorb hw hw' (y.length + 1) ((w' :: y).length + 1) y (some w) (some w) w w
          (p1 + 1) (p2 + 1) (toks ++ [numberToken dots buf]) [] out
          (by omega) (by omega)
      refine ⟨a, b, ?_, ?_, hab, ?_, ?_⟩
      · rw [dg_space _ _ _ hw]; exact ha
      · rw [dg_space _ _ _ hw]; exact hb
      · intro _; simp only [List.length_cons]; omega
      · intro _; simp only [List.length_cons] at lb ⊢; omega

theorem observe_flush_eof (d : Dispatch) (rd1 rd2 : Reader) (ch1 ch2 : Byte) (p1 p2 : Int)
    (toks : List GoString) (buf out : List Byte) :
    observe (match Lexer.appendIdentifier d ⟨rd1, ch1, p1, toks, buf, out⟩ with
        | .error e => .error e
        | .ok l => .ok { l with tokens := l.tokens ++ [str "EOF"] }) =
      observe (match Lexer.appendIdentifier d ⟨rd2, ch2, p2, toks, buf, out⟩ with
        | .error e => .error e
        | .ok l => .ok { l with tokens := l.tokens ++ [str "EOF"] }) := by
  cases buf with
  | nil => simp [appendIdentifier_nil]
  | cons b0 tl => simp [appendIdentifier_cons, observe]

theorem main_rel_continue {w w' : Byte} (d : Dispatch) (k1 k2 : Nat)
    (ih : ∀ (r1 r2 : List Byte) (lb1 lb2 : Option Byte) (ch1 ch2 : Byte) (p1 p2 : Int)
      (toks : List GoString) (buf out : List Byte),
      RestRel w w' r1 r2 → r1.length < k1 → r2.length < k2 →
      observe (scanLoop d k1 ⟨⟨r1, lb1⟩, ch1, p1, toks, buf, out⟩) =
        observe (scanLoop d k2 ⟨⟨r2, lb2⟩, ch2, p2, toks, buf, out⟩))
    (a b : Lexer) (hab : OutRel w w' a b) (la : a.reader.rest.length < k1)
    (lb : b.reader.rest.length < k2) (clear : Bool) :
    observe (if a.char = 0 then .ok a
        else scanLoop d k1 (if clear then { a with buffer := [] } else a)) =
      observe (if b.char = 0 then .ok b
        else scanLoop d k2 (if clear then { b with buffer := [] } else b)) := by
  obtain ⟨⟨ra, lba⟩, cha, pa, tka, bfa, oa⟩ := a
  obtain ⟨⟨rb, lbb⟩, chb, pb, tkb, bfb, ob⟩ := b
  obtain ⟨hc, ht, ho, hrest⟩ := hab
  simp only at hc ht ho hrest la lb
  subst hc ht ho
  by_cases h0 : cha = 0
  · simp [h0, observe]
  · obtain ⟨hb, hr⟩ := hrest h0
    subst hb
    simp only [h0, if_false]
    cases clear with
    | true => exact ih _ _ _ _ _ _ _ _ _ _ _ hr la lb
    | false => exact ih _ _ _ _ _ _ _ _ _ _ _ hr la lb

theorem main_rel {w w' : Byte} (hw : isWhiteSpace w = true) (hw' : isWhiteSpace w' = true)
    (d : Dispatch) (n1 : Nat) :
    ∀ (n2 : Nat) (r1 r2 : List Byte) (lb1 lb2 : Option Byte) (ch1 ch2 : Byte) (p1 p2 : Int)
      (toks : List GoString) (buf out : List Byte),
      RestRel w w' r1 r2 → r1.length < n1 → r2.length < n2 →
      observe (scanLoop d n1 ⟨⟨r1, lb1⟩, ch1, p1, toks, buf, out⟩) =
        observe (scanLoop d n2 ⟨⟨r2, lb2⟩, ch2, p2, toks, buf, out⟩) := by
  induction n1 with
  | zero => intro n2 r1 r2 lb1 lb2 ch1 ch2 p1 p2 toks buf out _ h1; simp at h1
  | succ k1 ih =>
    intro n2 r1 r2 lb1 lb2 ch1 ch2 p1 p2 toks buf out hrel h1 h2
    obtain ⟨k2, rfl⟩ : ∃ k, n2 = k + 1 := ⟨n2 - 1, by omega⟩
    rcases restRel_cases hrel with ⟨e1, e2⟩ | ⟨c, rs1, rs2, e1, e2, hr⟩ | ⟨y, e1, e2⟩
    · subst e1 e2
      rw [main_nil, main_nil]
      exact observe_flush_eof ..
    · subst e1 e2
      simp only [List.length_cons] at h1 h2
      by_cases h0 : c = 0
      · subst h0
        rw [main_zero, main_zero]
        exact observe_flush_eof ..
      · by_cases hc : isWhiteSpace c = true
        · obtain ⟨a, b, ha, hb, hab, la, lb⟩ :=
            ws_rel hw hw' (rs1.length + 1) (rs2.length + 1) rs1 rs2 (some c) (some c) c c
              (p1 + 1) (p2 + 1) (toks ++ pendingTokens d buf) [] (out ++ identOutput d buf)
              hr (by omega) (by omega)
          rw [main_space _ _ _ hc, main_space _ _ _ hc]
          simp only [Lexer.scanThroughWhiteSpace, ha, hb]
          exact main_rel_continue d k1 k2 (ih k2) a b hab (by omega) (by omega) false
        · by_cases hd : isDigit c = true
          · obtain ⟨a, b, ha, hb, hab, la, lb⟩ :=
              dg_rel hw hw' ((c :: rs1).length + 1) ((c :: rs2).length + 1) 0 (c :: rs1)
                (c :: rs2) none none c c p1 p2 (toks ++ pendingTokens d buf.dropLast) []
                (out ++ identOutput d buf.dropLast) hrel (by omega) (by omega)
            rw [main_digit _ _ _ hd, main_digit _ _ _ hd]
            simp only [Lexer.scanDigit, ha, hb]
            by_cases ha0 : a.char = 0
            · have hb0 : b.char = 0 := hab.1 ▸ ha0
              simp [ha0, hb0, observe, hab.2.1, hab.2.2.1]
            · have hb0 : b.char ≠ 0 := hab.1 ▸ ha0
              have la1 := la ha0
              have lb1 := lb hb0
              simp only [List.length_cons] at la1 lb1
              exact main_rel_continue d k1 k2 (ih k2) a b hab (by omega) (by omega) true
          · rw [main_other _ _ _ (by simpa using hc) (by simpa using hd) h0,
              main_other _ _ _ (by simpa using hc) (by simpa using hd) h0]
            exact ih k2 _ _ _ _ _ _ _ _ _ _ _ hr (by omega) (by omega)
    · subst e1 e2
      simp only [List.length_cons] at h1 h2
      obtain ⟨a, b, ha, hb, hab, la, lb⟩ :=
        ws_absorb hw hw' (y.length + 1) ((w' :: y).length + 1) y (some w) (some w) w w
          (p1 + 1) (p2 + 1) (toks ++ pendingTokens d buf) [] (out ++ identOutput d buf)
          (by omega) (by omega)
      rw [main_space _ _ _ hw, main_space _ _ _ hw]
      simp only [Lexer.scanThroughWhiteSpace, ha, hb]
      simp only [List.length_cons] at lb
      exact main_rel_continue d k1 k2 (ih k2) a b hab (by omega) (by omega) false

theorem ws_loop_returns (n : Nat) (r : List Byte) (lb : Option Byte) (ch : Byte) (p : Int)
    (toks : List GoString) (buf out : List Byte) (h : r.length < n) :
    ∃ a, scanThroughWhiteSpaceLoop n ⟨⟨r, lb⟩, ch, p, toks, buf, out⟩ = .ok a ∧
      a.reader.rest.length ≤ r.length := by
  obtain ⟨a, _, ha, _, _, la, _⟩ :=
    @ws_rel 32 32 (by decide) (by decide) n n r r lb lb ch ch p p toks buf out
      (Or.inl rfl) h h
  exact ⟨a, ha, la⟩

theorem digit_loop_returns (n dots : Nat) (r : List Byte) (lb : Option Byte) (ch : Byte)
    (p : Int) (toks : List GoString) (buf out : List Byte) (h : r.length < n) :
    ∃ a, scanDigitLoop n dots ⟨⟨r, lb⟩, ch, p, toks, buf, out⟩ = .ok a ∧
      (a.char ≠ 0 → a.reader.rest.length < r.length) := by
  obtain ⟨a, _, ha, _, _, la, _⟩ :=
    @dg_rel 32 32 (by decide) (by decide) n n dots r r lb lb ch ch p p toks buf
      out (Or.inl rfl) h h
  exact ⟨a, ha, la⟩

/-- The step budget that `Lexer.scan` supplies is never exhausted: with more
budget than unread bytes, the main loop does not end in `outOfFuel`. -/
theorem scan_loop_fuel_suffices (d : Dispatch) (n : Nat) :
    ∀ (r : List Byte) (lb : Option Byte) (ch : Byte) (p : Int) (toks : List GoString)
      (buf out : List Byte), r.length < n →
      scanLoop d n ⟨⟨r, lb⟩, ch, p, toks, buf, out⟩ ≠ .error .outOfFuel := by
  induction n with
  | zero => intro r lb ch p toks buf out h; simp at h
  | succ k ih =>
    intro r lb ch p toks buf out h
    have fin : ∀ (rd : Reader) (q : Int),
        (match Lexer.appendIdentifier d ⟨rd, 0, q, toks, buf, out⟩ with
          | .error e => .error e
          | .ok l => .ok { l with tokens := l.tokens ++ [str "EOF"] }) ≠
          (Except.error Fault.outOfFuel : Except Fault Lexer) := by
      intro rd q
      cases buf with
      | nil => simp [appendIdentifier_nil]
      | cons b0 tl => simp [appendIdentifier_cons]
    cases r with
    | nil => rw [main_nil]; exact fin _ _
    | cons c rs =>
      simp only [List.length_cons] at h
      by_cases h0 : c = 0
      · subst h0; rw [main_zero]; exact fin _ _
      · by_cases hc : isWhiteSpace c = true
        · obtain ⟨a, ha, la⟩ := ws_loop_returns (rs.length + 1) rs (some c) c (p + 1)
            (toks ++ pendingTokens d buf) [] (out ++ identOutput d buf) (by omega)
          rw [main_space _ _ _ hc]
          simp only [Lexer.scanThroughWhiteSpace, ha]
          obtain ⟨⟨ra, lba⟩, cha, pa, tka, bfa, oa⟩ := a
          by_cases ha0 : cha = 0
          · simp [ha0]
          · simp only [ha0, if_false]
            exact ih _ _ _ _ _ _ _ (by simp only at la; omega)
        · by_cases hd : isDigit c = true
          · obtain ⟨a, ha, la⟩ := digit_loop_returns ((c :: rs).length + 1) 0 (c :: rs) none c p
              (toks ++ pendingTokens d buf.dropLast) [] (out ++ identOutput d buf.dropLast)
              (by omega)
            rw [main_digit _ _ _ hd]
            simp only [Lexer.scanDigit, ha]
            obtain ⟨⟨ra, lba⟩, cha, pa, tka, bfa, oa⟩ := a
            by_cases ha0 : cha = 0
            · simp [ha0]
            · simp only [ha0, if_false]
              have := la ha0
              simp only [List.length_cons] at this
              exact ih _ _ _ _ _ _ _ (by omega)
          · rw [main_other _ _ _ (by simpa using hc) (by simpa using hd) h0]
            exact ih _ _ _ _ _ _ _ (by omega)

/-- A run of `scanSource` never ends in `outOfFuel`: it returns or it panics. -/
theorem scanSource_ne_outOfFuel (src : GoString) : scanSource src ≠ .error .outOfFuel := by
  unfold scanSource Lexer.scan NewLexer Reader.new
  exact scan_loop_fuel_suffices keywords _ _ _ _ _ _ _ _ (by simp)

theorem scanTokens_eq_of_observe {s1 s2 : GoString}
    (h : observe (scanSource s1) = observe (scanSource s2)) :
    scanTokens s1 = scanTokens s2 := by
  unfold scanTokens
  cases h1 : scanSource s1 <;> cases h2 : scanSource s2 <;>
    simp_all [observe]

/-- Claim C4: a whitespace run gives the same result whatever its length: for all
byte sequences `x`, `y` and whitespace bytes `w`, `w'`, scanning `x ++ [w] ++ y`
and scanning `x ++ [w, w'] ++ y` return the same token list, or fail alike. -/
theorem scan_whitespace_run_collapses (x y : GoString) (w w' : Byte)
    (hw : isWhiteSpace w = true) (hw' : isWhiteSpace w' = true) :
    scanTokens (x ++ [w] ++ y) = scanTokens (x ++ [w, w'] ++ y) := by
  apply scanTokens_eq_of_observe
  unfold scanSource Lexer.scan NewLexer Reader.new
  exact main_rel hw hw' keywords _ _ _ _ _ _ _ _ _ _ _ _ _
    (Or.inr ⟨x, y, by simp, by simp⟩) (by simp) (by simp)

/-- Witness for `scan_whitespace_run_collapses`: `1 + 2` with the first blank doubled. -/
theorem scan_whitespace_run_collapses_witness :
    isWhiteSpace 32 = true ∧ isWhiteSpace 9 = true ∧
      scanTokens (str "1" ++ [32] ++ str "+ 2") = scanTokens (str "1" ++ [32, 9] ++ str "+ 2") :=
  ⟨by decide, by decide, scan_whitespace_run_collapses (str "1") (str "+ 2") 32 9
    (by decide) (by decide)⟩

/-! ## Claim C5: the byte that ends a digit run -/

/-- Claim C5 (the code breaks it): on the input `1+ ` the byte `+` that ends the
digit run is not reprocessed; the run returns `[INT:1, WS, EOF]`, although
scanning `+ ` alone gives `[ADD, WS, EOF]`. -/
theorem digit_run_delimiter_dropped :
    scanTokens (str "1+ ") = .ok [str "INT:1", str "WS", str "EOF"] ∧
      scanTokens (str "+ ") = .ok [str "ADD", str "WS", str "EOF"] := by
  decide

/-! ## Claim C6: pending text in front of a digit -/

/-- Claim C6 (the code breaks it): when a digit follows pending text, the last
pending byte is dropped before the flush: `$ab1 ` gives `REFERENCE:a` and `+1 `
gives no `ADD` at all. -/
theorem pending_text_loses_last_byte :
    scanTokens (str "$ab1 ") = .ok [str "REFERENCE:a", str "INT:1", str "WS", str "EOF"] ∧
      scanTokens (str "+1 ") = .ok [str "INT:1", str "WS", str "EOF"] := by
  decide

/-! ## Digit runs (claims C7 and C10) -/

theorem dotsAfter_eq_zero (run : List Byte) :
    ∀ dots : Nat, dotsAfter run dots = 0 ↔ dots = 0 ∧ (46 : Byte) ∉ run := by
  induction run with
  | nil => intro dots; simp [dotsAfter]
  | cons c cs ih =>
    intro dots
    have h := ih (nextDots c dots)
    simp only [dotsAfter, List.foldl_cons] at h ⊢
    rw [h]
    by_cases hc : c = 46
    · subst hc
      by_cases hd : dots = 0 <;> simp [nextDots, hd]
    · have hc' : (46 : Byte) ≠ c := fun e => hc e.symm
      simp [nextDots, hc, hc']

theorem numberToken_dotsAfter (run buf : List Byte) :
    numberToken (dotsAfter run 0) buf =
      if (46 : Byte) ∈ run then str "FLOAT:" ++ buf else str "INT:" ++ buf := by
  have h := dotsAfter_eq_zero run 0
  by_cases hm : (46 : Byte) ∈ run
  · have : dotsAfter run 0 ≠ 0 := fun e => (h.1 e).2 hm
    simp [numberToken, this, hm]
  · have : dotsAfter run 0 = 0 := h.2 ⟨rfl, hm⟩
    simp [numberToken, this, hm]

theorem dg_run_all (run : List Byte) :
    (∀ c ∈ run, isDigit c = true ∨ c = 46) →
    ∀ (k dots : Nat) (tail : List Byte) (lb : Option Byte) (ch : Byte) (pos : Int)
      (toks : List GoString) (buf out : List Byte),
      ∃ (lb' : Option Byte) (ch' : Byte) (pos' : Int),
        scanDigitLoop (run.length + k) dots ⟨⟨run ++ tail, lb⟩, ch, pos, toks, buf, out⟩ =
          scanDigitLoop k (dotsAfter run dots) ⟨⟨tail, lb'⟩, ch', pos', toks, buf ++ run, out⟩ := by
  induction run with
  | nil =>
    intro _ k dots tail lb ch pos toks buf out
    exact ⟨lb, ch, pos, by simp [dotsAfter]⟩
  | cons c cs ih =>
    intro hrun k dots tail lb ch pos toks buf out
    have hc : isDigit c = true ∨ c = 46 := hrun c (by simp)
    obtain ⟨lb', ch', pos', h⟩ :=
      ih (fun x hx => hrun x (by simp [hx])) k (nextDots c dots) tail (some c) c (pos + 1)
        toks (buf ++ [c]) out
    refine ⟨lb', ch', pos', ?_⟩
    have e : (c :: cs).length + k = (cs.length + k) + 1 := by
      simp only [List.length_cons]; omega
    rw [e, List.cons_append, dg_run _ _ _ hc, h]
    simp [dotsAfter]

theorem scan_digit_start (d : Byte) (hd : isDigit d = true) (rs : List Byte) (n : Nat) :
    scanLoop keywords (n + 1) (NewLexer (d :: rs)) =
      match scanDigitLoop ((d :: rs).length + 1) 0 ⟨⟨d :: rs, none⟩, d, -1, [], [], []⟩ with
      | .error e => .error e
      | .ok l => if l.char = 0 then .ok l else scanLoop keywords n { l with buffer := [] } := by
  simp only [NewLexer, Reader.new]
  rw [main_digit _ _ _ hd]
  simp [Lexer.scanDigit, pendingTokens, identOutput]

/-- Claim C7, refuted as stated: scanning `3.14` does not give
`[FLOAT:3.14, WS, EOF]`. -/
theorem scan_float_no_trailing_ws :
    scanTokens (str "3.14") ≠ .ok [str "FLOAT:3.14", str "WS", str "EOF"] := by
  decide

/-- Claim C7 (amended): for every input that consists only of one digit run
`r = d :: s` (a digit followed by digits and points), `scan` returns exactly
`[N, EOF]`, where `N` is `FLOAT:r` when `s` has a point and `INT:r` otherwise: the
end-of-input token follows the numeric token directly. -/
theorem scan_digit_run_at_end (d : Byte) (s : List Byte) (hd : isDigit d = true)
    (hs : ∀ c ∈ s, isDigit c = true ∨ c = 46) :
    scanTokens (d :: s) =
      .ok [if (46 : Byte) ∈ s then str "FLOAT:" ++ d :: s else str "INT:" ++ d :: s,
        str "EOF"] := by
  have hrun : ∀ c ∈ d :: s, isDigit c = true ∨ c = 46 := by
    intro c hc
    rcases List.mem_cons.1 hc with h | h
    · exact Or.inl (h ▸ hd)
    · exact hs c h
  obtain ⟨lb', ch', pos', h⟩ :=
    dg_run_all (d :: s) hrun 1 0 [] none d (-1) [] [] []
  have hmem : ((46 : Byte) ∈ d :: s) ↔ (46 : Byte) ∈ s := by
    have : (46 : Byte) ≠ d := fun e => digit_ne_dot d hd e.symm
    simp [this]
  simp only [List.append_nil, List.nil_append] at h
  unfold scanTokens scanSource Lexer.scan
  simp only [NewLexer, Reader.new]
  have := scan_digit_start d hd s (d :: s).length
  simp only [NewLexer, Reader.new] at this
  rw [this, h, dg_nil]
  simp [numberToken_dotsAfter, hmem]

set_option maxRecDepth 100000 in
/-- Witness for `scan_digit_run_at_end` at the input `3.14`. -/
theorem scan_digit_run_at_end_witness :
    isDigit 51 = true ∧ (∀ c ∈ str ".14", isDigit c = true ∨ c = 46) ∧
      scanTokens (51 :: str ".14") =
        .ok [if (46 : Byte) ∈ str ".14" then str "FLOAT:" ++ 51 :: str ".14"
          else str "INT:" ++ 51 :: str ".14", str "EOF"] :=
  ⟨by decide, by decide, scan_digit_run_at_end 51 (str ".14") (by decide) (by decide)⟩

/-! ## Claim C8: a single word at end of input -/

/-- Claim C8, refuted as stated: scanning `@count` does not give
`[DECLARE:count, WS, EOF]`. -/
theorem scan_declare_no_trailing_ws :
    scanTokens (str "@count") ≠ .ok [str "DECLARE:count", str "WS", str "EOF"] := by
  decide

/-- Claim C8 (amended): a single word that reaches end of input is followed
directly by `EOF`: scanning `@count` gives exactly `[DECLARE:count, EOF]`, and
scanning `foo` gives exactly `[INVTOK, EOF]` and prints the one line `foo`. -/
theorem scan_single_word :
    scanTokens (str "@count") = .ok [str "DECLARE:count", str "EOF"] ∧
      scanTokens (str "foo") = .ok [str "INVTOK", str "EOF"] ∧
      scanOutput (str "foo") = .ok (str "foo\n") := by
  decide

/-! ## Claim C9: the flush at end of input -/

theorem main_plain_all (d : Dispatch) (t : List Byte) :
    (∀ c ∈ t, isWhiteSpace c = false ∧ isDigit c = false ∧ c ≠ 0) →
    ∀ (k : Nat) (tail : List Byte) (lb : Option Byte) (ch : Byte) (pos : Int)
      (toks : List GoString) (buf out : List Byte),
      ∃ (lb' : Option Byte) (ch' : Byte) (pos' : Int),
        scanLoop d (t.length + k) ⟨⟨t ++ tail, lb⟩, ch, pos, toks, buf, out⟩ =
          scanLoop d k ⟨⟨tail, lb'⟩, ch', pos', toks, buf ++ t, out⟩ := by
  induction t with
  | nil =>
    intro _ k tail lb ch pos toks buf out
    exact ⟨lb, ch, pos, by simp⟩
  | cons c cs ih =>
    intro ht k tail lb ch pos toks buf out
    obtain ⟨hw, hd, h0⟩ := ht c (by simp)
    obtain ⟨lb', ch', pos', h⟩ :=
      ih (fun x hx => ht x (by simp [hx])) k tail (some c) c (pos + 1) toks (buf ++ [c]) out
    refine ⟨lb', ch', pos', ?_⟩
    have e : (c :: cs).length + k = (cs.length + k) + 1 := by
      simp only [List.length_cons]; omega
    rw [e, List.cons_append, main_other _ _ _ hw hd h0, h]
    simp

/-- Claim C9: for every non-empty text `t` whose bytes are neither whitespace nor
digits nor NUL, scanning `t` returns exactly the two-element list `[T, EOF]`,
where `T` is the one token that a flush (`appendIdentifier`) of the text `t`
itself produces. -/
theorem scan_plain_text_at_end (t : GoString) (hne : t ≠ [])
    (ht : ∀ c ∈ t, isWhiteSpace c = false ∧ isDigit c = false ∧ c ≠ 0) :
    ∃ T, flushTokens keywords t = .ok [T] ∧ scanTokens t = .ok [T, str "EOF"] := by
  refine ⟨identToken keywords t, ?_, ?_⟩
  · simp [flushTokens, NewLexer, appendIdentifier_ne_nil _ _ _ _ _ _ _ hne]
  · obtain ⟨lb', ch', pos', h⟩ := main_plain_all keywords t ht 1 [] none 0 (-1) [] [] []
    simp only [List.append_nil, List.nil_append] at h
    unfold scanTokens scanSource Lexer.scan
    simp only [NewLexer, Reader.new]
    rw [h, main_nil]
    simp [appendIdentifier_ne_nil _ _ _ _ _ _ _ hne]

set_option maxRecDepth 100000 in
/-- Witness for `scan_plain_text_at_end` at the text `$x`. -/
theorem scan_plain_text_at_end_witness :
    str "$x" ≠ [] ∧ (∀ c ∈ str "$x", isWhiteSpace c = false ∧ isDigit c = false ∧ c ≠ 0) ∧
      ∃ T, flushTokens keywords (str "$x") = .ok [T] ∧
        scanTokens (str "$x") = .ok [T, str "EOF"] :=
  ⟨by decide, by decide, scan_plain_text_at_end (str "$x") (by decide) (by decide)⟩

/-! ## Claim C10: classification of a digit run -/

/-- Claim C10: for every run `r = d :: s` with `d` a digit and `s` any sequence of
digits and points, and every whitespace byte `w`, scanning `r ++ [w]` returns
exactly `[INT:r, WS, EOF]` when `s` has no point and `[FLOAT:r, WS, EOF]`
otherwise; the payload is the whole run. -/
theorem scan_digit_run_then_space (d : Byte) (s : List Byte) (w : Byte)
    (hd : isDigit d = true) (hs : ∀ c ∈ s, isDigit c = true ∨ c = 46)
    (hw : isWhiteSpace w = true) :
    scanTokens (d :: s ++ [w]) =
      .ok [if (46 : Byte) ∈ s then str "FLOAT:" ++ d :: s else str "INT:" ++ d :: s,
        str "WS", str "EOF"] := by
  have hrun : ∀ c ∈ d :: s, isDigit c = true ∨ c = 46 := by
    intro c hc
    rcases List.mem_cons.1 hc with h | h
    · exact Or.inl (h ▸ hd)
    · exact hs c h
  obtain ⟨lb', ch', pos', h⟩ :=
    dg_run_all (d :: s) hrun 2 0 [w] none d (-1) [] [] []
  have hmem : ((46 : Byte) ∈ d :: s) ↔ (46 : Byte) ∈ s := by
    have : (46 : Byte) ≠ d := fun e => digit_ne_dot d hd e.symm
    simp [this]
  simp only [List.nil_append] at h
  unfold scanTokens scanSource Lexer.scan
  have hstart := scan_digit_start d hd (s ++ [w]) (d :: s ++ [w]).length
  simp only [NewLexer, Reader.new, List.cons_append] at h hstart ⊢
  have e : (d :: (s ++ [w])).length + 1 = (d :: s).length + 2 := by simp
  rw [hstart, e, h, dg_space _ _ _ hw]
  simp only [Lexer.scanThroughWhiteSpace, List.length_nil, Nat.zero_add, ws_nil]
  simp [numberToken_dotsAfter, hmem]

set_option maxRecDepth 100000 in
/-- Witness for `scan_digit_run_then_space` at the input `1.2.3` and a newline. -/
theorem scan_digit_run_then_space_witness :
    isDigit 49 = true ∧ (∀ c ∈ str ".2.3", isDigit c = true ∨ c = 46) ∧
      isWhiteSpace 10 = true ∧
      scanTokens (49 :: str ".2.3" ++ [10]) =
        .ok [if (46 : Byte) ∈ str ".2.3" then str "FLOAT:" ++ 49 :: str ".2.3"
          else str "INT:" ++ 49 :: str ".2.3", str "WS", str "EOF"] :=
  ⟨by decide, by decide, by decide,
    scan_digit_run_then_space 49 (str ".2.3") 10 (by decide) (by decide) (by decide)⟩

/-! ## Claims C11-C13: the flush -/

/-- Claim C11: for every buffer `$ ++ p` the flush appends exactly the one token
`REFERENCE:p`, and for every buffer `@ ++ p` exactly `DECLARE:p`, whatever `p` is
and whatever the keyword table holds; nothing is printed and the buffer, the
earlier tokens and the rest of the state are unchanged. -/
theorem flush_sigil (d : Dispatch) (r : Reader) (ch : Byte) (pos : Int)
    (toks : List GoString) (p out : List Byte) :
    Lexer.appendIdentifier d ⟨r, ch, pos, toks, 36 :: p, out⟩ =
        .ok ⟨r, ch, pos, toks ++ [str "REFERENCE:" ++ p], 36 :: p, out⟩ ∧
      Lexer.appendIdentifier d ⟨r, ch, pos, toks, 64 :: p, out⟩ =
        .ok ⟨r, ch, pos, toks ++ [str "DECLARE:" ++ p], 64 :: p, out⟩ := by
  constructor <;> simp [Lexer.appendIdentifier]

theorem appendIdentifier_closed (r : Reader) (ch : Byte) (pos : Int)
    (toks : List GoString) (out t T : List Byte) (hne : t ≠ [])
    (hT : identToken keywords t = T) (hO : identOutput keywords t = []) :
    Lexer.appendIdentifier keywords ⟨r, ch, pos, toks, t, out⟩ =
      .ok ⟨r, ch, pos, toks ++ [T], t, out⟩ := by
  rw [appendIdentifier_ne_nil _ _ _ _ _ _ _ hne, hT, hO]
  simp

/-- Claim C12: with the keyword table initialised, the flush maps the buffer
texts `+`, `-`, `*`, `(`, `)`, `=` and `PRINT` to exactly one payload-less token
each (`ADD`, `SUB`, `MUL`, `LBRACKET`, `RBRACKET`, `ASSIGN`, `PRINT`) and prints
nothing. -/
theorem flush_operators (r : Reader) (ch : Byte) (pos : Int) (toks : List GoString)
    (out : List Byte) :
    Lexer.appendIdentifier keywords ⟨r, ch, pos, toks, str "+", out⟩ =
        .ok ⟨r, ch, pos, toks ++ [str "ADD"], str "+", out⟩ ∧
      Lexer.appendIdentifier keywords ⟨r, ch, pos, toks, str "-", out⟩ =
        .ok ⟨r, ch, pos, toks ++ [str "SUB"], str "-", out⟩ ∧
      Lexer.appendIdentifier keywords ⟨r, ch, pos, toks, str "*", out⟩ =
        .ok ⟨r, ch, pos, toks ++ [str "MUL"], str "*", out⟩ ∧
      Lexer.appendIdentifier keywords ⟨r, ch, pos, toks, str "(", out⟩ =
        .ok ⟨r, ch, pos, toks ++ [str "LBRACKET"], str "(", out⟩ ∧
      Lexer.appendIdentifier keywords ⟨r, ch, pos, toks, str ")", out⟩ =
        .ok ⟨r, ch, pos, toks ++ [str "RBRACKET"], str ")", out⟩ ∧
      Lexer.appendIdentifier keywords ⟨r, ch, pos, toks, str "=", out⟩ =
        .ok ⟨r, ch, pos, toks ++ [str "ASSIGN"], str "=", out⟩ ∧
      Lexer.appendIdentifier keywords ⟨r, ch, pos, toks, str "PRINT", out⟩ =
        .ok ⟨r, ch, pos, toks ++ [str "PRINT"], str "PRINT", out⟩ := by
  refine ⟨?_, ?_, ?_, ?_, ?_, ?_, ?_⟩ <;>
    exact appendIdentifier_closed _ _ _ _ _ _ _ (by decide) (by decide) (by decide)

theorem get?_isSome_iff (m : Dispatch) (k : GoString) :
    (Dispatch.get? m k).isSome = true ↔ k ∈ m.map Prod.fst := by
  induction m with
  | nil => simp [Dispatch.get?]
  | cons e es ih =>
    simp only [Dispatch.get?, Option.isSome_map'] at ih ⊢
    by_cases h : e.1 = k
    · simp [List.find?_cons, h]
    · have h' : ¬ k = e.1 := fun e' => h e'.symm
      simp [List.find?_cons, h, h', ih]

theorem keywords_keys :
    keywords.map Prod.fst =
      [str "FLOAT", str "INT", str "RBRACKET", str "LBRACKET", str "WS", str "DECLARE",
       str "REFERENCE", str "ASSIGN", str "PRINT", str "DIV", str "MUL", str "SUB",
       str "ADD", str "INVTOK", str "EOF"] := by
  decide

theorem str_plus : str "+" = [43] := by decide

theorem str_minus : str "-" = [45] := by decide

theorem str_star : str "*" = [42] := by decide

theorem str_assign : str "=" = [61] := by decide

theorem str_lparen : str "(" = [40] := by decide

theorem str_rparen : str ")" = [41] := by decide

theorem str_space : str " " = [32] := by decide

theorem str_PRINT : str "PRINT" = [80, 82, 73, 78, 84] := by decide

theorem str_EOF : str "EOF" = [69, 79, 70] := by decide

theorem str_INVTOK : str "INVTOK" = [73, 78, 86, 84, 79, 75] := by decide

theorem str_ADD : str "ADD" = [65, 68, 68] := by decide

theorem str_SUB : str "SUB" = [83, 85, 66] := by decide

theorem str_MUL : str "MUL" = [77, 85, 76] := by decide

theorem str_DIV : str "DIV" = [68, 73, 86] := by decide

theorem str_ASSIGN : str "ASSIGN" = [65, 83, 83, 73, 71, 78] := by decide

theorem str_REFERENCE : str "REFERENCE" = [82, 69, 70, 69, 82, 69, 78, 67, 69] := by decide

theorem str_DECLARE : str "DECLARE" = [68, 69, 67, 76, 65, 82, 69] := by decide

theorem str_WS : str "WS" = [87, 83] := by decide

theorem str_LBRACKET : str "LBRACKET" = [76, 66, 82, 65, 67, 75, 69, 84] := by decide

theorem str_RBRACKET : str "RBRACKET" = [82, 66, 82, 65, 67, 75, 69, 84] := by decide

theorem str_INT : str "INT" = [73, 78, 84] := by decide

theorem str_FLOAT : str "FLOAT" = [70, 76, 79, 65, 84] := by decide

theorem str_INT_colon : str "INT:" = [73, 78, 84, 58] := by decide

theorem str_FLOAT_colon : str "FLOAT:" = [70, 76, 79, 65, 84, 58] := by decide

theorem str_REFERENCE_colon : str "REFERENCE:" = [82, 69, 70, 69, 82, 69, 78, 67, 69, 58] := by decide

theorem str_DECLARE_colon : str "DECLARE:" = [68, 69, 67, 76, 65, 82, 69, 58] := by decide

set_option maxHeartbeats 4000000 in
theorem inTable_tokName_iff (t : List Byte) :
    (keywords.get? (tokName t)).isSome = true ↔ t ∈ recognisedTexts := by
  rw [get?_isSome_iff, keywords_keys]
  unfold tokName recognisedTexts
  simp only [str_plus, str_minus, str_star, str_assign, str_lparen, str_rparen, str_space, str_PRINT, str_EOF, str_INVTOK, str_ADD, str_SUB, str_MUL, str_DIV, str_ASSIGN, str_REFERENCE, str_DECLARE, str_WS, str_LBRACKET, str_RBRACKET, str_INT, str_FLOAT]
  split_ifs with h1 h2 h3 h4 h5 h6 h7 h8 h9 h10
  all_goals first
    | (subst_vars; decide)
    | (simp_all; done)
    | (simp_all; tauto)

set_option maxHeartbeats 4000000 in
theorem tokName_eq_self_of_not_inTable (t : List Byte)
    (h : ¬ (keywords.get? (tokName t)).isSome = true) : tokName t = t := by
  rw [get?_isSome_iff, keywords_keys] at h
  unfold tokName at h ⊢
  simp only [str_plus, str_minus, str_star, str_assign, str_lparen, str_rparen, str_space, str_PRINT, str_EOF, str_INVTOK, str_ADD, str_SUB, str_MUL, str_DIV, str_ASSIGN, str_REFERENCE, str_DECLARE, str_WS, str_LBRACKET, str_RBRACKET, str_INT, str_FLOAT] at h ⊢
  split_ifs at h ⊢ with h1 h2 h3 h4 h5 h6 h7 h8 h9 h10
  all_goals first
    | rfl
    | (subst_vars; exact absurd (by decide) h)

/-- Claim C13: with the keyword table initialised, for every non-empty buffer
text `t` that does not start with `$` or `@`, the flush returns normally and
appends exactly one token `T`; `T` is the payload-less `INVTOK` with `t` printed
as a diagnostic line if and only if `t` is not one of the recognised texts. -/
theorem flush_plain_text (r : Reader) (ch : Byte) (pos : Int) (toks : List GoString)
    (out : List Byte) (b0 : Byte) (tl : List Byte) (h36 : b0 ≠ 36) (h64 : b0 ≠ 64) :
    ∃ T diag, Lexer.appendIdentifier keywords ⟨r, ch, pos, toks, b0 :: tl, out⟩ =
        .ok ⟨r, ch, pos, toks ++ [T], b0 :: tl, out ++ diag⟩ ∧
      ((T = str "INVTOK" ∧ diag = (b0 :: tl) ++ str "\n") ↔ (b0 :: tl) ∉ recognisedTexts) := by
  refine ⟨identToken keywords (b0 :: tl), identOutput keywords (b0 :: tl),
    appendIdentifier_cons .., ?_⟩
  rw [← inTable_tokName_iff]
  by_cases h : (keywords.get? (tokName (b0 :: tl))).isSome = true
  · simp [identToken, identOutput, h36, h64, h]
  · have e := tokName_eq_self_of_not_inTable _ h
    have h' : ¬ (keywords.get? (b0 :: tl)).isSome = true := e ▸ h
    simp [identToken, identOutput, h36, h64, h', e]

set_option maxRecDepth 100000 in
/-- Witness for `flush_plain_text` at the buffer text `foo`. -/
theorem flush_plain_text_witness :
    (102 : Byte) ≠ 36 ∧ (102 : Byte) ≠ 64 ∧
      ∃ T diag, Lexer.appendIdentifier keywords ⟨Reader.new [], 0, 0, [], 102 :: str "oo", []⟩ =
          .ok ⟨Reader.new [], 0, 0, [] ++ [T], 102 :: str "oo", [] ++ diag⟩ ∧
        ((T = str "INVTOK" ∧ diag = (102 :: str "oo") ++ str "\n") ↔
          (102 :: str "oo") ∉ recognisedTexts) :=
  ⟨by decide, by decide,
    flush_plain_text (Reader.new []) 0 0 [] [] 102 (str "oo") (by decide) (by decide)⟩

/-! ## Claim C15: the character classes -/

set_option maxRecDepth 100000 in
/-- Claim C15: the three classifiers are defined on all 256 byte values and are
true exactly on their stated sets: `isWhiteSpace` on 32, 9 and 10, `isLetter` on
`a`..`z` and `A`..`Z`, `isDigit` on `0`..`9`; carriage return, NUL and every
byte from 128 on are in none of the classes, and no byte is in two of them. -/
theorem classifiers_exact :
    (∀ c : Byte, isWhiteSpace c = true ↔ (c.val = 32 ∨ c.val = 9 ∨ c.val = 10)) ∧
      (∀ c : Byte, isLetter c = true ↔
        ((97 ≤ c.val ∧ c.val ≤ 122) ∨ (65 ≤ c.val ∧ c.val ≤ 90))) ∧
      (∀ c : Byte, isDigit c = true ↔ (48 ≤ c.val ∧ c.val ≤ 57)) ∧
      (∀ c : Byte, (c.val = 13 ∨ c.val = 0 ∨ 128 ≤ c.val) →
        isWhiteSpace c = false ∧ isLetter c = false ∧ isDigit c = false) ∧
      (∀ c : Byte, ¬ (isWhiteSpace c = true ∧ isLetter c = true) ∧
        ¬ (isWhiteSpace c = true ∧ isDigit c = true) ∧
        ¬ (isLetter c = true ∧ isDigit c = true)) := by
  refine ⟨?_, ?_, ?_, ?_, ?_⟩ <;> decide

/-! ## Claim C16: rendering the token list -/

theorem string_fold (sep : GoString) (ts : List GoString) :
    ∀ t0 : GoString,
      ts.foldl (fun out t => out ++ sep ++ t) t0 = List.intercalate sep (t0 :: ts) := by
  induction ts with
  | nil => intro t0; simp [List.intercalate]
  | cons t1 ts ih =>
    intro t0
    rw [List.foldl_cons, ih]
    cases ts <;> simp [List.intercalate, List.intersperse]

/-- Claim C16: for every non-empty token list `t0 :: ts`, `Lexer.String` returns
the descriptors in their order joined by the two bytes `, `, with nothing before
the first or after the last; a one-element list renders as its descriptor. -/
theorem string_joins_tokens (r : Reader) (ch : Byte) (pos : Int) (t0 : GoString)
    (ts : List GoString) (buf out : List Byte) :
    Lexer.String ⟨r, ch, pos, t0 :: ts, buf, out⟩ =
        .ok (List.intercalate (str ", ") (t0 :: ts)) ∧
      str ", " = [44, 32] ∧
      Lexer.String ⟨r, ch, pos, [t0], buf, out⟩ = .ok t0 := by
  refine ⟨?_, by decide, ?_⟩
  · simp only [Lexer.String]
    rw [string_fold]
  · simp [Lexer.String]

/-! ## The program computes the automaton -/

theorem observe_flush (d : Dispatch) (rd : Reader) (ch : Byte) (p : Int)
    (toks : List GoString) (buf out : List Byte) :
    observe (match Lexer.appendIdentifier d ⟨rd, ch, p, toks, buf, out⟩ with
        | .error e => .error e
        | .ok l => .ok { l with tokens := l.tokens ++ [str "EOF"] }) =
      flushAtEnd d buf toks out := by
  cases buf with
  | nil => simp [appendIdentifier_nil, flushAtEnd, observe]
  | cons b0 tl => simp [appendIdentifier_cons, observe, flushAtEnd]

theorem ws_loop_buffer (n : Nat) :
    ∀ (l a : Lexer), scanThroughWhiteSpaceLoop n l = .ok a → l.buffer = [] → a.buffer = [] := by
  induction n with
  | zero => intro l a h; simp [scanThroughWhiteSpaceLoop] at h
  | succ n ih =>
    intro l a h hb
    obtain ⟨⟨rest, lb⟩, ch, pos, toks, buf, out⟩ := l
    simp only at hb
    subst hb
    cases rest with
    | nil =>
      rw [ws_nil] at h
      simp only [Except.ok.injEq] at h
      subst h; rfl
    | cons c rs =>
      by_cases h0 : c = 0
      · subst h0
        rw [ws_zero] at h
        simp only [Except.ok.injEq] at h
        subst h; rfl
      · by_cases hw : isWhiteSpace c = true
        · rw [ws_space _ _ hw] at h
          exact ih _ _ h rfl
        · rw [ws_other _ _ (by simpa using hw) h0] at h
          simp only [Except.ok.injEq] at h
          subst h; rfl

theorem resume_ws (d : Dispatch) (k n : Nat) (l : Lexer) (hb : l.buffer = []) :
    (match scanThroughWhiteSpaceLoop n l with
      | .error e => .error e
      | .ok a => if a.char = 0 then .ok a else scanLoop d k a) =
      resume d k (scanThroughWhiteSpaceLoop n l) := by
  cases h : scanThroughWhiteSpaceLoop n l with
  | error e => rfl
  | ok a =>
    have hb' := ws_loop_buffer n l a h hb
    obtain ⟨rd, ch, p, toks, buf, out⟩ := a
    simp only at hb'
    subst hb'
    rfl

theorem lexFrom_refines (d : Dispatch) (rest : List Byte) :
    (∀ (k : Nat) (lb : Option Byte) (ch : Byte) (p : Int) (toks : List GoString)
        (buf out : List Byte), rest.length < k →
        observe (scanLoop d k ⟨⟨rest, lb⟩, ch, p, toks, buf, out⟩) =
          lexFrom d rest (.main buf) toks out) ∧
      (∀ (n k : Nat) (lb : Option Byte) (ch : Byte) (p : Int) (toks : List GoString)
        (out : List Byte), rest.length < n → rest.length < k →
        observe (resume d k (scanThroughWhiteSpaceLoop n ⟨⟨rest, lb⟩, ch, p, toks, [], out⟩)) =
          lexFrom d rest .white toks out) ∧
      (∀ (n k dots : Nat) (lb : Option Byte) (ch : Byte) (p : Int) (toks : List GoString)
        (buf out : List Byte), rest.length < n → rest.length < k →
        observe (resume d k (scanDigitLoop n dots ⟨⟨rest, lb⟩, ch, p, toks, buf, out⟩)) =
          lexFrom d rest (.digit dots buf) toks out) := by
  induction rest with
  | nil =>
    refine ⟨?_, ?_, ?_⟩
    · intro k lb ch p toks buf out hk
      obtain ⟨k, rfl⟩ : ∃ j, k = j + 1 := ⟨k - 1, by omega⟩
      rw [main_nil]
      refine (observe_flush ..).trans ?_
      simp [lexFrom, Mode.next, Mode.emit, Mode.print, Mode.finish]
    · intro n k lb ch p toks out hn hk
      obtain ⟨n, rfl⟩ : ∃ j, n = j + 1 := ⟨n - 1, by omega⟩
      rw [ws_nil]
      simp [resume, observe, lexFrom, Mode.finish]
    · intro n k dots lb ch p toks buf out hn hk
      obtain ⟨n, rfl⟩ : ∃ j, n = j + 1 := ⟨n - 1, by omega⟩
      rw [dg_nil]
      simp [resume, observe, lexFrom, Mode.finish]
  | cons c rs ih =>
    obtain ⟨ihm, ihw, ihd⟩ := ih
    have hmain : ∀ (k : Nat) (lb : Option Byte) (ch : Byte) (p : Int) (toks : List GoString)
        (buf out : List Byte), (c :: rs).length < k →
        observe (scanLoop d k ⟨⟨c :: rs, lb⟩, ch, p, toks, buf, out⟩) =
          lexFrom d (c :: rs) (.main buf) toks out := by
      intro k lb ch p toks buf out hk
      simp only [List.length_cons] at hk
      obtain ⟨k, rfl⟩ : ∃ j, k = j + 1 := ⟨k - 1, by omega⟩
      by_cases h0 : c = 0
      · subst h0
        rw [main_zero]
        refine (observe_flush ..).trans ?_
        simp [lexFrom, Mode.next, Mode.emit, Mode.print, Mode.finish]
      · by_cases hw : isWhiteSpace c = true
        · rw [main_space _ _ _ hw]
          simp only [Lexer.scanThroughWhiteSpace]
          refine (congrArg observe (resume_ws d k (rs.length + 1)
            ⟨⟨rs, some c⟩, c, p + 1, toks ++ pendingTokens d buf, [], out ++ identOutput d buf⟩
            rfl)).trans ?_
          rw [ihw _ _ _ _ _ _ _ (by omega) (by omega)]
          simp [lexFrom, Mode.next, Mode.emit, Mode.print, Mode.finish, h0, hw]
        · have hw' : isWhiteSpace c = false := by simpa using hw
          by_cases hd : isDigit c = true
          · rw [main_digit _ _ _ hd]
            simp only [Lexer.scanDigit, List.length_cons]
            rw [dg_run _ _ _ (Or.inl hd)]
            refine (ihd (rs.length + 1) k (nextDots c 0) (some c) c (p + 1)
              (toks ++ pendingTokens d buf.dropLast) ([] ++ [c])
              (out ++ identOutput d buf.dropLast) (by omega) (by omega)).trans ?_
            simp [lexFrom, Mode.next, Mode.emit, Mode.print, Mode.finish, h0, hw', hd]
          · have hd' : isDigit c = false := by simpa using hd
            rw [main_other _ _ _ hw' hd' h0, ihm _ _ _ _ _ _ _ (by omega)]
            simp [lexFrom, Mode.next, Mode.emit, Mode.print, Mode.finish, h0, hw', hd']
    refine ⟨hmain, ?_, ?_⟩
    · intro n k lb ch p toks out hn hk
      simp only [List.length_cons] at hn hk
      obtain ⟨n, rfl⟩ : ∃ j, n = j + 1 := ⟨n - 1, by omega⟩
      by_cases h0 : c = 0
      · subst h0
        rw [ws_zero]
        simp [resume, observe, lexFrom, Mode.finish]
      · by_cases hw : isWhiteSpace c = true
        · rw [ws_space _ _ hw, ihw _ _ _ _ _ _ _ (by omega) (by omega)]
          simp [lexFrom, Mode.next, Mode.emit, Mode.print, Mode.finish, h0, hw]
        · have hw' : isWhiteSpace c = false := by simpa using hw
          rw [ws_other _ _ hw' h0]
          simp only [resume, h0, if_false, List.dropLast_nil]
          rw [hmain _ _ _ _ _ _ _ (by simpa using hk)]
          by_cases hd : isDigit c = true
          · simp [lexFrom, Mode.next, Mode.emit, Mode.print, Mode.finish, h0, hw', hd, pendingTokens, identOutput]
          · have hd' : isDigit c = false := by simpa using hd
            simp [lexFrom, Mode.next, Mode.emit, Mode.print, Mode.finish, h0, hw', hd']
    · intro n k dots lb ch p toks buf out hn hk
      simp only [List.length_cons] at hn hk
      obtain ⟨n, rfl⟩ : ∃ j, n = j + 1 := ⟨n - 1, by omega⟩
      by_cases h0 : c = 0
      · subst h0
        rw [dg_zero]
        simp [resume, observe, lexFrom, Mode.finish]
      · by_cases hrun : isDigit c = true ∨ c = 46
        · rw [dg_run _ _ _ hrun, ihd _ _ _ _ _ _ _ _ _ (by omega) (by omega)]
          simp [lexFrom, Mode.next, Mode.emit, Mode.print, Mode.finish, h0, hrun]
        · have hd' : isDigit c = false := by
            cases hcd : isDigit c
            · rfl
            · exact absurd (Or.inl hcd) hrun
          have hdot : c ≠ 46 := fun e => hrun (Or.inr e)
          by_cases hw : isWhiteSpace c = true
          · rw [dg_space _ _ _ hw]
            simp only [Lexer.scanThroughWhiteSpace]
            rw [ihw _ _ _ _ _ _ _ (by omega) (by omega)]
            simp [lexFrom, Mode.next, Mode.emit, Mode.print, Mode.finish, h0, hd', hdot, hw]
          · have hw' : isWhiteSpace c = false := by simpa using hw
            rw [dg_other _ _ _ hw' hd' hdot h0]
            simp only [resume, h0, if_false]
            rw [ihm _ _ _ _ _ _ _ (by omega)]
            simp [lexFrom, Mode.next, Mode.emit, Mode.print, Mode.finish, h0, hd', hdot, hw']

theorem scanSource_observe (src : GoString) :
    observe (scanSource src) = lexFrom keywords src (.main []) [] [] := by
  unfold scanSource Lexer.scan NewLexer Reader.new
  exact (lexFrom_refines keywords src).1 _ _ _ _ _ _ _ (by simp)

theorem scanTokens_eq_lexFrom (src : GoString) :
    scanTokens src =
      match lexFrom keywords src (.main []) [] [] with
      | .error e => .error e
      | .ok r => .ok r.1 := by
  rw [← scanSource_observe]
  unfold scanTokens observe
  cases scanSource src <;> rfl

/-! ### Input that ends in whitespace -/

theorem next_ws (m : Mode) (c : Byte) (hw : isWhiteSpace c = true) : m.next c = .white := by
  cases m <;> simp [Mode.next, hw, ws_not_digit c hw, ws_ne_dot c hw]

theorem lexFrom_ends_ws (d : Dispatch) (rest : List Byte) :
    ∀ (m : Mode) (toks : List GoString) (out : List Byte), (∀ b ∈ rest, b ≠ 0) →
      ((rest = [] ∧ m = .white) ∨ ∃ init w, rest = init ++ [w] ∧ isWhiteSpace w = true) →
      ∃ pre o, lexFrom d rest m toks out = .ok (pre ++ [str "WS", str "EOF"], o) := by
  induction rest with
  | nil =>
    intro m toks out _ h
    rcases h with ⟨_, hm⟩ | ⟨init, w, h, _⟩
    · subst hm
      exact ⟨toks, out, by simp [lexFrom, Mode.finish]⟩
    · simp at h
  | cons c rs ih =>
    intro m toks out h0 h
    have hc : c ≠ 0 := h0 c (by simp)
    simp only [lexFrom, hc, if_false]
    apply ih _ _ _ (fun b hb => h0 b (by simp [hb]))
    rcases h with ⟨h, _⟩ | ⟨init, w, h, hw⟩
    · simp at h
    · cases init with
      | nil =>
        simp only [List.nil_append, List.cons.injEq] at h
        obtain ⟨rfl, rfl⟩ := h
        exact Or.inl ⟨rfl, next_ws m c hw⟩
      | cons a init =>
        simp only [List.cons_append, List.cons.injEq] at h
        exact Or.inr ⟨init, w, h.2, hw⟩

/-! ### The inputs on which the run panics -/

theorem endsAfterDigitBlock_iff (rest : List Byte) :
    EndsAfterDigitBlock rest ↔
      ∃ pre dg tail, rest = pre ++ dg :: tail ∧ isDigit dg = true ∧ RunThenLast tail := by
  constructor
  · rintro ⟨pre, blk, c, h, hblk, ⟨b, hb, hbd⟩, hc⟩
    obtain ⟨b1, b2, rfl⟩ := List.append_of_mem hb
    refine ⟨pre ++ b1, b, b2 ++ [c], by simp [h], hbd, b2, c, rfl, ?_, hc⟩
    intro x hx
    exact hblk x (by simp [hx])
  · rintro ⟨pre, dg, tail, h, hd, s, c, rfl, hs, hc⟩
    refine ⟨pre, dg :: s, c, by simp [h], ?_, ⟨dg, by simp, hd⟩, hc⟩
    intro x hx
    rcases List.mem_cons.1 hx with rfl | hx
    · exact Or.inl hd
    · exact hs x hx

theorem endsAfterDigitBlock_nil : ¬ EndsAfterDigitBlock [] := by
  rintro ⟨pre, blk, c, h, _⟩
  simp at h

theorem runThenLast_nil : ¬ RunThenLast [] := by
  rintro ⟨s, c, h, _⟩
  simp at h

theorem endsAfterDigitBlock_cons (c : Byte) (rs : List Byte) :
    EndsAfterDigitBlock (c :: rs) ↔
      (isDigit c = true ∧ RunThenLast rs) ∨ EndsAfterDigitBlock rs := by
  simp only [endsAfterDigitBlock_iff]
  constructor
  · rintro ⟨pre, dg, tail, h, hd, ht⟩
    cases pre with
    | nil =>
      simp only [List.nil_append, List.cons.injEq] at h
      obtain ⟨rfl, rfl⟩ := h
      exact Or.inl ⟨hd, ht⟩
    | cons a pre =>
      simp only [List.cons_append, List.cons.injEq] at h
      exact Or.inr ⟨pre, dg, tail, h.2, hd, ht⟩
  · rintro (⟨hd, ht⟩ | ⟨pre, dg, tail, h, hd, ht⟩)
    · exact ⟨[], c, rs, rfl, hd, ht⟩
    · exact ⟨c :: pre, dg, tail, by simp [h], hd, ht⟩

theorem runThenLast_cons (c : Byte) (rs : List Byte) :
    RunThenLast (c :: rs) ↔
      (isTerminator c ∧ rs = []) ∨ ((isDigit c = true ∨ c = 46) ∧ RunThenLast rs) := by
  constructor
  · rintro ⟨s, x, h, hs, hx⟩
    cases s with
    | nil =>
      simp only [List.nil_append, List.cons.injEq] at h
      obtain ⟨rfl, rfl⟩ := h
      exact Or.inl ⟨hx, rfl⟩
    | cons a s =>
      simp only [List.cons_append, List.cons.injEq] at h
      obtain ⟨rfl, rfl⟩ := h
      exact Or.inr ⟨hs c (by simp), s, x, rfl, fun b hb => hs b (by simp [hb]), hx⟩
  · rintro (⟨hc, rfl⟩ | ⟨hc, s, x, rfl, hs, hx⟩)
    · exact ⟨[], c, rfl, by simp, hc⟩
    · refine ⟨c :: s, x, rfl, ?_, hx⟩
      intro b hb
      rcases List.mem_cons.1 hb with rfl | hb
      · exact hc
      · exact hs b hb

theorem failsFrom_step (m : Mode) (c : Byte) (rs : List Byte) :
    FailsFrom (m.next c) rs ↔ FailsFrom m (c :: rs) := by
  have hE := endsAfterDigitBlock_cons c rs
  have hR := runThenLast_cons c rs
  cases m with
  | main buf =>
    by_cases hw : isWhiteSpace c = true
    · have hd := ws_not_digit c hw
      simp [Mode.next, FailsFrom, hw, hE, hd]
    · by_cases hd : isDigit c = true
      · simp [Mode.next, FailsFrom, hw, hd, hE]
      · simp [Mode.next, FailsFrom, hw, hd, hE]
  | digit dots buf =>
    by_cases hrun : isDigit c = true ∨ c = 46
    · simp only [Mode.next, FailsFrom, hrun, if_true, hE, hR]
      simp only [isTerminator]
      rcases hrun with hd | hdot
      · simp [hd]
      · subst hdot
        simp
        tauto
    · have hd : isDigit c = false := by
        cases hcd : isDigit c
        · rfl
        · exact absurd (Or.inl hcd) hrun
      have hdot : c ≠ 46 := fun e => hrun (Or.inr e)
      by_cases hw : isWhiteSpace c = true
      · simp [Mode.next, FailsFrom, hrun, hw, hE, hR, hd, hdot, isTerminator]
      · simp [Mode.next, FailsFrom, hrun, hw, hE, hR, hd, hdot, isTerminator]
  | white =>
    by_cases hw : isWhiteSpace c = true
    · have hd := ws_not_digit c hw
      simp [Mode.next, FailsFrom, hw, hE, hd]
    · by_cases hd : isDigit c = true
      · simp [Mode.next, FailsFrom, hw, hd, hE]
      · simp [Mode.next, FailsFrom, hw, hd, hE]

theorem lexFrom_fails_iff (d : Dispatch) (rest : List Byte) :
    ∀ (m : Mode) (toks : List GoString) (out : List Byte), (∀ b ∈ rest, b ≠ 0) →
      (lexFrom d rest m toks out = .error .indexOutOfRange ↔ FailsFrom m rest) ∧
      (¬ FailsFrom m rest → ∃ r, lexFrom d rest m toks out = .ok r) := by
  induction rest with
  | nil =>
    intro m toks out _
    cases m with
    | main buf =>
      cases buf <;>
        simp [lexFrom, Mode.finish, flushAtEnd, FailsFrom, endsAfterDigitBlock_nil]
    | digit dots buf =>
      simp [lexFrom, Mode.finish, FailsFrom, endsAfterDigitBlock_nil, runThenLast_nil]
    | white =>
      simp [lexFrom, Mode.finish, FailsFrom, endsAfterDigitBlock_nil]
  | cons c rs ih =>
    intro m toks out h0
    have hc : c ≠ 0 := h0 c (by simp)
    simp only [lexFrom, hc, if_false, ← failsFrom_step]
    exact ih _ _ _ (fun b hb => h0 b (by simp [hb]))

/-! ### Invariants of the token list -/

theorem lexFrom_tokens (d : Dispatch) (P : GoString → Prop) (Inv : Mode → List Byte → Prop)
    (hstep : ∀ m c rs, c ≠ 0 → Inv m (c :: rs) → Inv (m.next c) rs ∧ ∀ t ∈ m.emit d c, P t)
    (hfin : ∀ m rest toks out r, Inv m rest → m.finish d toks out = .ok r →
      (∀ t ∈ toks, P t) → ∀ t ∈ r.1, P t)
    (rest : List Byte) :
    ∀ (m : Mode) (toks : List GoString) (out : List Byte)
      (r : List GoString × List Byte), Inv m rest → (∀ t ∈ toks, P t) →
      lexFrom d rest m toks out = .ok r → ∀ t ∈ r.1, P t := by
  induction rest with
  | nil =>
    intro m toks out r hI hP h
    simp only [lexFrom] at h
    exact hfin m [] toks out r hI h hP
  | cons c rs ih =>
    intro m toks out r hI hP h
    by_cases hc : c = 0
    · simp only [lexFrom, hc, if_true] at h
      exact hfin m (c :: rs) toks out r hI h hP
    · simp only [lexFrom, hc, if_false] at h
      obtain ⟨hI', hE⟩ := hstep m c rs hc hI
      refine ih _ _ _ r hI' ?_ h
      intro t ht
      rcases List.mem_append.1 ht with ht | ht
      · exact hP t ht
      · exact hE t ht

theorem numericShape_of_other (tok : GoString) (h1 : ∀ p, tok ≠ str "INT:" ++ p)
    (h2 : ∀ p, tok ≠ str "FLOAT:" ++ p) : NumericShape tok :=
  ⟨fun p h => absurd h (h1 p), fun p h => absurd h (h2 p)⟩

theorem numericShape_ws : NumericShape (str "WS") := by
  apply numericShape_of_other <;> intro p <;> simp [str_WS, str_INT_colon, str_FLOAT_colon]

theorem numericShape_eof : NumericShape (str "EOF") := by
  apply numericShape_of_other <;> intro p <;> simp [str_EOF, str_INT_colon, str_FLOAT_colon]

theorem keyword_not_numeric (T : GoString) (h : T ∈ keywords.map Prod.fst) (p : List Byte) :
    T ≠ str "INT:" ++ p ∧ T ≠ str "FLOAT:" ++ p := by
  rw [keywords_keys] at h
  simp only [str_FLOAT, str_INT, str_RBRACKET, str_LBRACKET, str_WS, str_DECLARE,
    str_REFERENCE, str_ASSIGN, str_PRINT, str_DIV, str_MUL, str_SUB, str_ADD, str_INVTOK,
    str_EOF, List.mem_cons, List.mem_singleton, List.not_mem_nil, or_false] at h
  rcases h with h | h | h | h | h | h | h | h | h | h | h | h | h | h | h <;>
    subst h <;> simp [str_INT_colon, str_FLOAT_colon]

theorem identToken_not_numeric (x p : List Byte) :
    identToken keywords x ≠ str "INT:" ++ p ∧ identToken keywords x ≠ str "FLOAT:" ++ p := by
  cases x with
  | nil => simp [identToken, str_INT_colon, str_FLOAT_colon]
  | cons b0 tl =>
    simp only [identToken]
    split_ifs with h1 h2 h3
    · simp [str_REFERENCE_colon, str_INT_colon, str_FLOAT_colon]
    · simp [str_DECLARE_colon, str_INT_colon, str_FLOAT_colon]
    · exact keyword_not_numeric _ ((get?_isSome_iff _ _).1 h3) p
    · simp [str_INVTOK, str_INT_colon, str_FLOAT_colon]

theorem numericShape_ident (x : List Byte) : NumericShape (identToken keywords x) :=
  numericShape_of_other _ (fun p => (identToken_not_numeric x p).1)
    (fun p => (identToken_not_numeric x p).2)

theorem numericShape_number (dots : Nat) (buf : List Byte) (h : RunBuffer dots buf) :
    NumericShape (numberToken dots buf) := by
  obtain ⟨⟨dg, s, hbuf, hdg⟩, hall, hdots⟩ := h
  have hnz : ∀ b ∈ buf, b ≠ 0 := by
    intro b hb
    rcases hall b hb with h | h
    · exact digit_ne_zero b h
    · subst h; decide
  by_cases hd : dots = 0
  · have hno : (46 : Byte) ∉ buf := hdots.1 hd
    simp only [numberToken, hd, if_true]
    refine ⟨?_, ?_⟩
    · intro p hp
      have : buf = p := List.append_cancel_left hp
      subst this
      refine ⟨by simp [hbuf], fun b hb => ⟨?_, hnz b hb⟩⟩
      rcases hall b hb with h | h
      · exact h
      · exact absurd (h ▸ hb) hno
    · intro p hp
      simp [str_INT_colon, str_FLOAT_colon] at hp
  · have hyes : (46 : Byte) ∈ buf := by
      by_contra hc
      exact hd (hdots.2 hc)
    simp only [numberToken, hd, if_false]
    refine ⟨?_, ?_⟩
    · intro p hp
      simp [str_INT_colon, str_FLOAT_colon] at hp
    · intro p hp
      have : buf = p := List.append_cancel_left hp
      subst this
      exact ⟨⟨dg, s, hbuf, hdg⟩, fun b hb => ⟨hall b hb, hnz b hb⟩, hyes⟩

theorem runBuffer_start (c : Byte) (hd : isDigit c = true) : RunBuffer (nextDots c 0) [c] := by
  have h46 : c ≠ 46 := digit_ne_dot c hd
  have h46' : (46 : Byte) ≠ c := fun e => h46 e.symm
  refine ⟨⟨c, [], rfl, hd⟩, ?_, ?_⟩
  · intro b hb
    simp only [List.mem_singleton] at hb
    exact Or.inl (hb ▸ hd)
  · simp [nextDots, h46, h46']

theorem runBuffer_next (dots : Nat) (buf : List Byte) (c : Byte) (h : RunBuffer dots buf)
    (hc : isDigit c = true ∨ c = 46) : RunBuffer (nextDots c dots) (buf ++ [c]) := by
  obtain ⟨⟨dg, s, hbuf, hdg⟩, hall, hdots⟩ := h
  refine ⟨⟨dg, s ++ [c], by simp [hbuf], hdg⟩, ?_, ?_⟩
  · intro b hb
    rcases List.mem_append.1 hb with hb | hb
    · exact hall b hb
    · simp only [List.mem_singleton] at hb
      exact hb ▸ hc
  · by_cases h46 : c = 46
    · subst h46
      by_cases hd : dots = 0 <;> simp [nextDots, hd]
    · have h46' : (46 : Byte) ≠ c := fun e => h46 e.symm
      simp [nextDots, h46, h46', hdots]

theorem mem_pendingTokens (d : Dispatch) (x : List Byte) (t : GoString)
    (ht : t ∈ pendingTokens d x) : x ≠ [] ∧ t = identToken d x := by
  unfold pendingTokens at ht
  split_ifs at ht with hx
  · simp at ht
  · exact ⟨hx, by simpa using ht⟩

theorem emit_main (d : Dispatch) (buf : List Byte) (c : Byte) (t : GoString)
    (ht : t ∈ (Mode.main buf).emit d c) :
    ∃ x, x ≠ [] ∧ x <+: buf ∧ t = identToken d x := by
  cases hw : isWhiteSpace c
  · cases hd : isDigit c
    · simp [Mode.emit, hw, hd] at ht
    · simp only [Mode.emit, hw, hd, if_true, Bool.false_eq_true, if_false] at ht
      obtain ⟨hx, e⟩ := mem_pendingTokens d _ t ht
      exact ⟨buf.dropLast, hx, List.dropLast_prefix buf, e⟩
  · simp only [Mode.emit, hw, if_true] at ht
    obtain ⟨hx, e⟩ := mem_pendingTokens d _ t ht
    exact ⟨buf, hx, List.prefix_refl buf, e⟩

theorem lexFrom_numericShape (rest : List Byte) (m : Mode) (toks : List GoString)
    (out : List Byte) (r : List GoString × List Byte) (hI : ShapeInv m rest)
    (hP : ∀ t ∈ toks, NumericShape t) (h : lexFrom keywords rest m toks out = .ok r) :
    ∀ t ∈ r.1, NumericShape t := by
  refine lexFrom_tokens keywords NumericShape ShapeInv ?_ ?_ rest m toks out r hI hP h
  · intro m c rs hc hI
    cases m with
    | main buf =>
      have hE : ∀ t ∈ (Mode.main buf).emit keywords c, NumericShape t := by
        intro t ht
        obtain ⟨x, _, _, e⟩ := emit_main keywords buf c t ht
        exact e ▸ numericShape_ident x
      refine ⟨?_, hE⟩
      by_cases hw : isWhiteSpace c = true
      · simp [Mode.next, hw, ShapeInv]
      · by_cases hd : isDigit c = true
        · simpa [Mode.next, hw, hd, ShapeInv] using runBuffer_start c hd
        · simp [Mode.next, hw, hd, ShapeInv]
    | digit dots buf =>
      simp only [ShapeInv] at hI
      by_cases hrun : isDigit c = true ∨ c = 46
      · exact ⟨by simpa [Mode.next, hrun, ShapeInv] using runBuffer_next dots buf c hI hrun,
          by simp [Mode.emit, hrun]⟩
      · refine ⟨?_, ?_⟩
        · by_cases hw : isWhiteSpace c = true <;> simp [Mode.next, hrun, hw, ShapeInv]
        · intro t ht
          simp only [Mode.emit, hrun, if_false, List.mem_singleton] at ht
          exact ht ▸ numericShape_number dots buf hI
    | white =>
      by_cases hw : isWhiteSpace c = true
      · exact ⟨by simp [Mode.next, hw, ShapeInv], by simp [Mode.emit, hw]⟩
      · refine ⟨?_, ?_⟩
        · by_cases hd : isDigit c = true
          · simpa [Mode.next, hw, hd, ShapeInv] using runBuffer_start c hd
          · simp [Mode.next, hw, hd, ShapeInv]
        · intro t ht
          have hw' : isWhiteSpace c = false := by simpa using hw
          simp only [Mode.emit, hw', Bool.false_eq_true, if_false, List.mem_singleton] at ht
          exact ht ▸ numericShape_ws
  · intro m rest toks out r hI hfin hP t ht
    cases m with
    | main buf =>
      cases buf with
      | nil => simp [Mode.finish, flushAtEnd] at hfin
      | cons b0 tl =>
        simp only [Mode.finish, flushAtEnd, Except.ok.injEq] at hfin
        subst hfin
        simp only [List.mem_append, List.mem_singleton] at ht
        rcases ht with (ht | ht) | ht
        · exact hP t ht
        · exact ht ▸ numericShape_ident _
        · exact ht ▸ numericShape_eof
    | digit dots buf =>
      simp only [Mode.finish, Except.ok.injEq] at hfin
      subst hfin
      simp only [List.mem_append, List.mem_singleton] at ht
      rcases ht with (ht | ht) | ht
      · exact hP t ht
      · exact ht ▸ numericShape_number dots buf hI
      · exact ht ▸ numericShape_eof
    | white =>
      simp only [Mode.finish, Except.ok.injEq] at hfin
      subst hfin
      simp only [List.mem_append, List.mem_singleton] at ht
      rcases ht with (ht | ht) | ht
      · exact hP t ht
      · exact ht ▸ numericShape_ws
      · exact ht ▸ numericShape_eof

/-! ### The word `DIV` -/

set_option maxHeartbeats 4000000 in
theorem tokName_eq_div (x : List Byte) (h : tokName x = str "DIV") : x = str "DIV" := by
  unfold tokName at h
  simp only [str_plus, str_minus, str_star, str_assign, str_lparen, str_rparen, str_space, str_PRINT, str_EOF, str_INVTOK, str_ADD, str_SUB, str_MUL, str_DIV, str_ASSIGN, str_REFERENCE, str_DECLARE, str_WS, str_LBRACKET, str_RBRACKET, str_INT, str_FLOAT] at h ⊢
  split_ifs at h with h1 h2 h3 h4 h5 h6 h7 h8 h9 h10
  all_goals first
    | exact h
    | (exfalso; revert h; decide)

theorem identToken_eq_div (x : List Byte) (h : identToken keywords x = str "DIV") :
    x = str "DIV" := by
  cases x with
  | nil => simp [identToken, str_DIV] at h
  | cons b0 tl =>
    simp only [identToken] at h
    split_ifs at h with h1 h2 h3
    · simp [str_REFERENCE_colon, str_DIV] at h
    · simp [str_DECLARE_colon, str_DIV] at h
    · exact tokName_eq_div _ h
    · simp [str_INVTOK, str_DIV] at h

theorem numberToken_ne_div (dots : Nat) (buf : List Byte) :
    numberToken dots buf ≠ str "DIV" := by
  unfold numberToken
  split_ifs <;> simp [str_INT_colon, str_FLOAT_colon, str_DIV]

theorem noDivWord_of_infix {l1 l2 : List Byte} (h : l1 <:+: l2) (hn : NoDivWord l2) :
    NoDivWord l1 :=
  fun hd => hn (List.IsInfix.trans hd h)

theorem lexFrom_noDiv (rest : List Byte) (m : Mode) (toks : List GoString)
    (out : List Byte) (r : List GoString × List Byte) (hI : NoDivInv m rest)
    (hP : ∀ t ∈ toks, t ≠ str "DIV") (h : lexFrom keywords rest m toks out = .ok r) :
    ∀ t ∈ r.1, t ≠ str "DIV" := by
  have flushed : ∀ (x buf tail : List Byte), x <+: buf → NoDivWord (buf ++ tail) →
      identToken keywords x ≠ str "DIV" := by
    intro x buf tail hx hn e
    have := identToken_eq_div x e
    subst this
    exact hn (List.IsInfix.trans hx.isInfix (List.prefix_append buf tail).isInfix)
  refine lexFrom_tokens keywords (fun t => t ≠ str "DIV") NoDivInv ?_ ?_ rest m toks out r
    hI hP h
  · intro m c rs hc hI
    cases m with
    | main buf =>
      simp only [NoDivInv] at hI
      have hrs : NoDivWord rs :=
        noDivWord_of_infix (List.IsSuffix.isInfix ⟨buf ++ [c], by simp⟩) hI
      refine ⟨?_, ?_⟩
      · by_cases hw : isWhiteSpace c = true
        · simpa [Mode.next, hw, NoDivInv] using hrs
        · by_cases hd : isDigit c = true
          · simpa [Mode.next, hw, hd, NoDivInv] using hrs
          · simpa [Mode.next, hw, hd, NoDivInv] using hI
      · intro t ht
        obtain ⟨x, _, hx, e⟩ := emit_main keywords buf c t ht
        exact e ▸ flushed x buf (c :: rs) hx hI
    | digit dots buf =>
      simp only [NoDivInv] at hI
      have hrs : NoDivWord rs :=
        noDivWord_of_infix (List.IsSuffix.isInfix ⟨[c], by simp⟩) hI
      refine ⟨?_, ?_⟩
      · by_cases hrun : isDigit c = true ∨ c = 46
        · simpa [Mode.next, hrun, NoDivInv] using hrs
        · by_cases hw : isWhiteSpace c = true
          · simpa [Mode.next, hrun, hw, NoDivInv] using hrs
          · simpa [Mode.next, hrun, hw, NoDivInv] using hrs
      · intro t ht
        by_cases hrun : isDigit c = true ∨ c = 46
        · simp [Mode.emit, hrun] at ht
        · simp only [Mode.emit, hrun, if_false, List.mem_singleton] at ht
          exact ht ▸ numberToken_ne_div dots buf
    | white =>
      simp only [NoDivInv] at hI
      have hrs : NoDivWord rs :=
        noDivWord_of_infix (List.IsSuffix.isInfix ⟨[c], by simp⟩) hI
      refine ⟨?_, ?_⟩
      · by_cases hw : isWhiteSpace c = true
        · simpa [Mode.next, hw, NoDivInv] using hrs
        · by_cases hd : isDigit c = true
          · simpa [Mode.next, hw, hd, NoDivInv] using hrs
          · simpa [Mode.next, hw, hd, NoDivInv] using hI
      · intro t ht
        cases hw : isWhiteSpace c
        · simp only [Mode.emit, hw, Bool.false_eq_true, if_false, List.mem_singleton] at ht
          subst ht
          decide
        · simp [Mode.emit, hw] at ht
  · intro m rest toks out r hI hfin hP t ht
    have hEOF : str "EOF" ≠ str "DIV" := by decide
    have hWS : str "WS" ≠ str "DIV" := by decide
    cases m with
    | main buf =>
      cases buf with
      | nil => simp [Mode.finish, flushAtEnd] at hfin
      | cons b0 tl =>
        simp only [Mode.finish, flushAtEnd, Except.ok.injEq] at hfin
        subst hfin
        simp only [List.mem_append, List.mem_singleton] at ht
        rcases ht with (ht | ht) | ht
        · exact hP t ht
        · exact ht ▸ flushed _ _ rest (List.prefix_refl _) hI
        · exact ht ▸ hEOF
    | digit dots buf =>
      simp only [Mode.finish, Except.ok.injEq] at hfin
      subst hfin
      simp only [List.mem_append, List.mem_singleton] at ht
      rcases ht with (ht | ht) | ht
      · exact hP t ht
      · exact ht ▸ numberToken_ne_div dots buf
      · exact ht ▸ hEOF
    | white =>
      simp only [Mode.finish, Except.ok.injEq] at hfin
      subst hfin
      simp only [List.mem_append, List.mem_singleton] at ht
      rcases ht with (ht | ht) | ht
      · exact hP t ht
      · exact ht ▸ hWS
      · exact ht ▸ hEOF

theorem lexFrom_of_scanTokens (src : GoString) (toks : List GoString)
    (h : scanTokens src = .ok toks) :
    ∃ o, lexFrom keywords src (.main []) [] [] = .ok (toks, o) := by
  rw [scanTokens_eq_lexFrom] at h
  cases hl : lexFrom keywords src (.main []) [] [] with
  | error e => simp [hl] at h
  | ok r =>
    simp only [hl, Except.ok.injEq] at h
    exact ⟨r.2, by rw [← h]⟩

/-! ## Claim C14: the descriptor `DIV` -/

/-- Claim C14, refuted as stated: scanning the input `DIV ` returns a token list
that contains the descriptor `DIV`. -/
theorem div_word_gives_div_token :
    ∃ toks, scanTokens (str "DIV ") = .ok toks ∧ str "DIV" ∈ toks :=
  ⟨[str "DIV", str "WS", str "EOF"], by decide, by decide⟩

/-- Claim C14 (amended): for every input in which the word `DIV` does not occur,
the token list returned by `scan` contains no `DIV`; a lone `/` is flushed to
`INVTOK`; and the only buffer text that a flush turns into `DIV` is the word
`DIV` itself. -/
theorem no_div_token_without_word (src : GoString) (toks : List GoString)
    (hno : ¬ (str "DIV" <:+: src)) (h : scanTokens src = .ok toks) :
    str "DIV" ∉ toks ∧ flushTokens keywords (str "/") = .ok [str "INVTOK"] ∧
      ∀ t, flushTokens keywords t = .ok [str "DIV"] ↔ t = str "DIV" := by
  refine ⟨?_, by decide, ?_⟩
  · obtain ⟨o, hl⟩ := lexFrom_of_scanTokens src toks h
    intro hmem
    exact lexFrom_noDiv src (.main []) [] [] (toks, o) (by simpa [NoDivInv, NoDivWord] using hno)
      (by simp) hl _ hmem rfl
  · intro t
    constructor
    · intro ht
      cases t with
      | nil => simp [flushTokens, NewLexer, Lexer.appendIdentifier] at ht
      | cons b0 tl =>
        simp only [flushTokens, NewLexer, appendIdentifier_cons, List.nil_append,
          Except.ok.injEq, List.cons.injEq, and_true] at ht
        exact identToken_eq_div _ ht
    · rintro rfl
      decide

set_option maxRecDepth 100000 in
/-- Witness for `no_div_token_without_word` at the input `1 / 2`. -/
theorem no_div_token_without_word_witness :
    ¬ (str "DIV" <:+: str "1 / 2") ∧
      scanTokens (str "1 / 2") =
        .ok [str "INT:1", str "WS", str "INVTOK", str "WS", str "INT:2", str "EOF"] ∧
      (str "DIV" ∉ [str "INT:1", str "WS", str "INVTOK", str "WS", str "INT:2", str "EOF"] ∧
        flushTokens keywords (str "/") = .ok [str "INVTOK"] ∧
        ∀ t, flushTokens keywords t = .ok [str "DIV"] ↔ t = str "DIV") :=
  ⟨by decide, by decide, no_div_token_without_word (str "1 / 2") _ (by decide) (by decide)⟩

/-! ## Claim C17: the inputs on which `scan` panics -/

/-- Claim C17: for every input without a NUL byte, `scan` panics (index out of
range in `appendIdentifier`) if and only if the input is empty, or its last byte
is neither whitespace, a digit nor a point and is immediately preceded by a
block of digits and points that contains a digit; on every other such input
`scan` returns a token list. -/
theorem scan_panics_iff (src : GoString) (h0 : ∀ b ∈ src, b ≠ 0) :
    (scanTokens src = .error .indexOutOfRange ↔ (src = [] ∨ EndsAfterDigitBlock src)) ∧
      (¬ (src = [] ∨ EndsAfterDigitBlock src) → ∃ toks, scanTokens src = .ok toks) := by
  obtain ⟨hiff, hok⟩ := lexFrom_fails_iff keywords src (.main []) [] [] h0
  simp only [FailsFrom, and_true] at hiff hok
  rw [scanTokens_eq_lexFrom]
  constructor
  · rw [← hiff]
    cases lexFrom keywords src (.main []) [] [] <;> simp
  · intro hn
    obtain ⟨r, hr⟩ := hok hn
    exact ⟨r.1, by simp [hr]⟩

set_option maxRecDepth 100000 in
/-- Witness for `scan_panics_iff` at the input `a1+`. -/
theorem scan_panics_iff_witness :
    (∀ b ∈ str "a1+", b ≠ 0) ∧
      ((scanTokens (str "a1+") = .error .indexOutOfRange ↔
          (str "a1+" = [] ∨ EndsAfterDigitBlock (str "a1+"))) ∧
        (¬ (str "a1+" = [] ∨ EndsAfterDigitBlock (str "a1+")) →
          ∃ toks, scanTokens (str "a1+") = .ok toks)) :=
  ⟨by decide, scan_panics_iff (str "a1+") (by decide)⟩

/-! ## Claim C18: input that ends in whitespace -/

/-- Claim C18: for every input without a NUL byte whose last byte `w` is
whitespace, `scan` returns a token list, and the last two tokens of that list
are `WS` and `EOF`. -/
theorem scan_ends_ws_eof (init : GoString) (w : Byte) (h0 : ∀ b ∈ init ++ [w], b ≠ 0)
    (hw : isWhiteSpace w = true) :
    ∃ pre, scanTokens (init ++ [w]) = .ok (pre ++ [str "WS", str "EOF"]) := by
  obtain ⟨pre, o, h⟩ := lexFrom_ends_ws keywords (init ++ [w]) (.main []) [] [] h0
    (Or.inr ⟨init, w, rfl, hw⟩)
  exact ⟨pre, by rw [scanTokens_eq_lexFrom, h]⟩

set_option maxRecDepth 100000 in
/-- Witness for `scan_ends_ws_eof` at the input `PRINT $x` followed by a newline. -/
theorem scan_ends_ws_eof_witness :
    (∀ b ∈ str "PRINT $x" ++ [10], b ≠ 0) ∧ isWhiteSpace 10 = true ∧
      ∃ pre, scanTokens (str "PRINT $x" ++ [10]) = .ok (pre ++ [str "WS", str "EOF"]) :=
  ⟨by decide, by decide, scan_ends_ws_eof (str "PRINT $x") 10 (by decide) (by decide)⟩

/-! ## Claim C20: the payload of numeric tokens -/

/-- Claim C20: for every input on which `scan` returns, every token `INT:p` of
the result has a non-empty payload `p` of digits only, and every token `FLOAT:p`
has a payload that starts with a digit, consists of digits and points and has a
point; no payload byte is NUL (or any other byte that ends a run). -/
theorem scan_numeric_payloads (src : GoString) (toks : List GoString)
    (h : scanTokens src = .ok toks) :
    ∀ tok ∈ toks,
      (∀ p, tok = str "INT:" ++ p → p ≠ [] ∧ ∀ b ∈ p, isDigit b = true ∧ b ≠ 0) ∧
        (∀ p, tok = str "FLOAT:" ++ p →
          (∃ dg s, p = dg :: s ∧ isDigit dg = true) ∧
            (∀ b ∈ p, (isDigit b = true ∨ b = 46) ∧ b ≠ 0) ∧ (46 : Byte) ∈ p) := by
  obtain ⟨o, hl⟩ := lexFrom_of_scanTokens src toks h
  exact lexFrom_numericShape src (.main []) [] [] (toks, o) (by simp [ShapeInv]) (by simp) hl

/-- Witness for `scan_numeric_payloads` at the input `1.5 22`. -/
theorem scan_numeric_payloads_witness :
    scanTokens (str "1.5 22") = .ok [str "FLOAT:1.5", str "WS", str "INT:22", str "EOF"] ∧
      ∀ tok ∈ [str "FLOAT:1.5", str "WS", str "INT:22", str "EOF"],
        (∀ p, tok = str "INT:" ++ p → p ≠ [] ∧ ∀ b ∈ p, isDigit b = true ∧ b ≠ 0) ∧
          (∀ p, tok = str "FLOAT:" ++ p →
            (∃ dg s, p = dg :: s ∧ isDigit dg = true) ∧
              (∀ b ∈ p, (isDigit b = true ∨ b = 46) ∧ b ≠ 0) ∧ (46 : Byte) ∈ p) :=
  ⟨by decide, scan_numeric_payloads (str "1.5 22") _ (by decide)⟩

/-! ## Claim C19: termination -/

theorem ws_iteration (l : Lexer) :
    (∃ r, ∀ n, scanThroughWhiteSpaceLoop (n + 1) l = r) ∨
      (∃ l', l'.reader.rest.length < l.reader.rest.length ∧
        ∀ n, scanThroughWhiteSpaceLoop (n + 1) l = scanThroughWhiteSpaceLoop n l') := by
  obtain ⟨⟨rest, lb⟩, ch, p, toks, buf, out⟩ := l
  cases rest with
  | nil => exact Or.inl ⟨_, fun n => ws_nil n ..⟩
  | cons c rs =>
    by_cases h0 : c = 0
    · subst h0
      exact Or.inl ⟨_, fun n => ws_zero n ..⟩
    · by_cases hw : isWhiteSpace c = true
      · exact Or.inr ⟨_, by simp, fun n => ws_space n c hw ..⟩
      · exact Or.inl ⟨_, fun n => ws_other n c (by simpa using hw) h0 ..⟩

theorem digit_iteration (dots : Nat) (l : Lexer) :
    (∃ r, ∀ n, scanDigitLoop (n + 1) dots l = r) ∨
      (∃ dots' l', l'.reader.rest.length < l.reader.rest.length ∧
        ∀ n, scanDigitLoop (n + 1) dots l = scanDigitLoop n dots' l') := by
  obtain ⟨⟨rest, lb⟩, ch, p, toks, buf, out⟩ := l
  cases rest with
  | nil => exact Or.inl ⟨_, fun n => dg_nil n ..⟩
  | cons c rs =>
    by_cases h0 : c = 0
    · subst h0
      exact Or.inl ⟨_, fun n => dg_zero n ..⟩
    · by_cases hrun : isDigit c = true ∨ c = 46
      · exact Or.inr ⟨_, _, by simp, fun n => dg_run n dots c hrun ..⟩
      · have hd : isDigit c = false := by
          cases hcd : isDigit c
          · rfl
          · exact absurd (Or.inl hcd) hrun
        have hdot : c ≠ 46 := fun e => hrun (Or.inr e)
        by_cases hw : isWhiteSpace c = true
        · exact Or.inl ⟨_, fun n => dg_space n dots c hw ..⟩
        · exact Or.inl ⟨_, fun n => dg_other n dots c (by simpa using hw) hd hdot h0 ..⟩

theorem scan_iteration (d : Dispatch) (l : Lexer) :
    (∃ r, ∀ n, scanLoop d (n + 1) l = r) ∨
      (∃ l', l'.reader.rest.length < l.reader.rest.length ∧
        ∀ n, scanLoop d (n + 1) l = scanLoop d n l') := by
  obtain ⟨⟨rest, lb⟩, ch, p, toks, buf, out⟩ := l
  cases rest with
  | nil => exact Or.inl ⟨_, fun n => main_nil d n ..⟩
  | cons c rs =>
    by_cases h0 : c = 0
    · subst h0
      exact Or.inl ⟨_, fun n => main_zero d n ..⟩
    · by_cases hw : isWhiteSpace c = true
      · obtain ⟨a, ha, la⟩ := ws_loop_returns (rs.length + 1) rs (some c) c (p + 1)
          (toks ++ pendingTokens d buf) [] (out ++ identOutput d buf) (by omega)
        by_cases ha0 : a.char = 0
        · refine Or.inl ⟨.ok a, fun n => ?_⟩
          rw [main_space _ _ _ hw]
          simp [Lexer.scanThroughWhiteSpace, ha, ha0]
        · refine Or.inr ⟨a, by simp only [List.length_cons]; omega, fun n => ?_⟩
          rw [main_space _ _ _ hw]
          simp [Lexer.scanThroughWhiteSpace, ha, ha0]
      · by_cases hd : isDigit c = true
        · obtain ⟨a, ha, la⟩ := digit_loop_returns ((c :: rs).length + 1) 0 (c :: rs) none c p
            (toks ++ pendingTokens d buf.dropLast) [] (out ++ identOutput d buf.dropLast)
            (by omega)
          by_cases ha0 : a.char = 0
          · refine Or.inl ⟨.ok a, fun n => ?_⟩
            rw [main_digit _ _ _ hd]
            simp only [Lexer.scanDigit, ha, ha0, if_true]
          · refine Or.inr ⟨{ a with buffer := [] }, la ha0, fun n => ?_⟩
            rw [main_digit _ _ _ hd]
            simp only [Lexer.scanDigit, ha, ha0, if_false]
        · exact Or.inr ⟨_, by simp, fun n =>
            main_other d n c (by simpa using hw) (by simpa using hd) h0 ..⟩

/-- Claim C19: `scan` halts on every input.  Every iteration of the loops of
`scan`, `scanDigit` and `scanThroughWhiteSpace` either stops or continues from a
state with strictly fewer unread bytes; so the step budget `unread + 1` is never
exhausted, any larger budget gives the same tokens and output, and the run
equals `lexFrom`, a function defined by recursion on the unread input alone,
with no budget. -/
theorem scan_halts (d : Dispatch) (l : Lexer) :
    ((∃ r, ∀ n, scanLoop d (n + 1) l = r) ∨
        (∃ l', l'.reader.rest.length < l.reader.rest.length ∧
          ∀ n, scanLoop d (n + 1) l = scanLoop d n l')) ∧
      (∀ dots, (∃ r, ∀ n, scanDigitLoop (n + 1) dots l = r) ∨
        (∃ dots' l', l'.reader.rest.length < l.reader.rest.length ∧
          ∀ n, scanDigitLoop (n + 1) dots l = scanDigitLoop n dots' l')) ∧
      ((∃ r, ∀ n, scanThroughWhiteSpaceLoop (n + 1) l = r) ∨
        (∃ l', l'.reader.rest.length < l.reader.rest.length ∧
          ∀ n, scanThroughWhiteSpaceLoop (n + 1) l = scanThroughWhiteSpaceLoop n l')) ∧
      (∃ a, l.scanThroughWhiteSpace = .ok a) ∧ (∃ a, l.scanDigit = .ok a) ∧
      Lexer.scan d l ≠ .error .outOfFuel ∧
      (∀ n, l.reader.rest.length < n → observe (scanLoop d n l) = observe (Lexer.scan d l)) ∧
      observe (Lexer.scan d l) = lexFrom d l.reader.rest (.main l.buffer) l.tokens l.stdout := by
  refine ⟨scan_iteration d l, fun dots => digit_iteration dots l, ws_iteration l, ?_, ?_, ?_,
    ?_, ?_⟩
  all_goals obtain ⟨⟨rest, lb⟩, ch, p, toks, buf, out⟩ := l
  · obtain ⟨a, ha, _⟩ := ws_loop_returns (rest.length + 1) rest lb ch p toks buf out (by omega)
    exact ⟨a, ha⟩
  · obtain ⟨a, ha, _⟩ :=
      digit_loop_returns (rest.length + 1) 0 rest lb ch p toks buf out (by omega)
    exact ⟨a, ha⟩
  · exact scan_loop_fuel_suffices d _ _ _ _ _ _ _ _ (by simp)
  · intro n hn
    simp only [Lexer.scan]
    rw [(lexFrom_refines d rest).1 _ _ _ _ _ _ _ hn,
      (lexFrom_refines d rest).1 _ _ _ _ _ _ _ (by simp)]
  · simp only [Lexer.scan]
    exact (lexFrom_refines d rest).1 _ _ _ _ _ _ _ (by simp)

/-! ## Claim C2: `EOF` is last, and occurs once when the input has no word `EOF` -/

set_option maxHeartbeats 4000000 in
theorem tokName_eq_eof (x : List Byte) (h : tokName x = str "EOF") : x = str "EOF" := by
  unfold tokName at h
  simp only [str_plus, str_minus, str_star, str_assign, str_lparen, str_rparen, str_space, str_PRINT, str_EOF, str_INVTOK, str_ADD, str_SUB, str_MUL, str_DIV, str_ASSIGN, str_REFERENCE, str_DECLARE, str_WS, str_LBRACKET, str_RBRACKET, str_INT, str_FLOAT] at h ⊢
  split_ifs at h with h1 h2 h3 h4 h5 h6 h7 h8 h9 h10
  all_goals first
    | assumption
    | exact h
    | (exfalso; revert h; decide)

theorem identToken_eq_eof (x : List Byte) (h : identToken keywords x = str "EOF") :
    x = str "EOF" := by
  cases x with
  | nil => simp [identToken, str_EOF] at h
  | cons b0 tl =>
    simp only [identToken] at h
    split_ifs at h with h1 h2 h3
    · simp [str_REFERENCE_colon, str_EOF] at h
    · simp [str_DECLARE_colon, str_EOF] at h
    · exact tokName_eq_eof _ h
    · simp [str_INVTOK, str_EOF] at h

theorem numberToken_ne_eof (dots : Nat) (buf : List Byte) :
    numberToken dots buf ≠ str "EOF" := by
  unfold numberToken
  split_ifs <;> simp [str_INT_colon, str_FLOAT_colon, str_EOF]

theorem flushed_ne_eof (x buf tail : List Byte) (hx : x <+: buf)
    (hn : NoEofWord (buf ++ tail)) : identToken keywords x ≠ str "EOF" := by
  intro e
  have := identToken_eq_eof x e
  subst this
  exact hn (List.IsInfix.trans hx.isInfix (List.prefix_append buf tail).isInfix)

theorem noEofWord_of_infix {l1 l2 : List Byte} (h : l1 <:+: l2) (hn : NoEofWord l2) :
    NoEofWord l1 :=
  fun hd => hn (List.IsInfix.trans hd h)

theorem noEof_step (m : Mode) (c : Byte) (rs : List Byte) (hI : NoEofInv m (c :: rs)) :
    NoEofInv (m.next c) rs ∧ ∀ t ∈ m.emit keywords c, t ≠ str "EOF" := by
  cases m with
  | main buf =>
    simp only [NoEofInv] at hI
    have hrs : NoEofWord rs :=
      noEofWord_of_infix (List.IsSuffix.isInfix ⟨buf ++ [c], by simp⟩) hI
    refine ⟨?_, ?_⟩
    · by_cases hw : isWhiteSpace c = true
      · simpa [Mode.next, hw, NoEofInv] using hrs
      · by_cases hd : isDigit c = true
        · simpa [Mode.next, hw, hd, NoEofInv] using hrs
        · simpa [Mode.next, hw, hd, NoEofInv] using hI
    · intro t ht
      obtain ⟨x, _, hx, e⟩ := emit_main keywords buf c t ht
      exact e ▸ flushed_ne_eof x buf (c :: rs) hx hI
  | digit dots buf =>
    simp only [NoEofInv] at hI
    have hrs : NoEofWord rs :=
      noEofWord_of_infix (List.IsSuffix.isInfix ⟨[c], by simp⟩) hI
    refine ⟨?_, ?_⟩
    · by_cases hrun : isDigit c = true ∨ c = 46
      · simpa [Mode.next, hrun, NoEofInv] using hrs
      · by_cases hw : isWhiteSpace c = true
        · simpa [Mode.next, hrun, hw, NoEofInv] using hrs
        · simpa [Mode.next, hrun, hw, NoEofInv] using hrs
    · intro t ht
      by_cases hrun : isDigit c = true ∨ c = 46
      · simp [Mode.emit, hrun] at ht
      · simp only [Mode.emit, hrun, if_false, List.mem_singleton] at ht
        exact ht ▸ numberToken_ne_eof dots buf
  | white =>
    simp only [NoEofInv] at hI
    have hrs : NoEofWord rs :=
      noEofWord_of_infix (List.IsSuffix.isInfix ⟨[c], by simp⟩) hI
    refine ⟨?_, ?_⟩
    · by_cases hw : isWhiteSpace c = true
      · simpa [Mode.next, hw, NoEofInv] using hrs
      · by_cases hd : isDigit c = true
        · simpa [Mode.next, hw, hd, NoEofInv] using hrs
        · simpa [Mode.next, hw, hd, NoEofInv] using hI
    · intro t ht
      cases hw : isWhiteSpace c
      · simp only [Mode.emit, hw, Bool.false_eq_true, if_false, List.mem_singleton] at ht
        subst ht
        decide
      · simp [Mode.emit, hw] at ht

theorem noEof_finish (m : Mode) (rest : List Byte) (toks : List GoString) (out : List Byte)
    (r : List GoString × List Byte) (hI : NoEofInv m rest)
    (h : m.finish keywords toks out = .ok r) :
    ∃ x, r.1 = toks ++ [x] ++ [str "EOF"] ∧ x ≠ str "EOF" := by
  cases m with
  | main buf =>
    cases buf with
    | nil => simp [Mode.finish, flushAtEnd] at h
    | cons b0 tl =>
      simp only [Mode.finish, flushAtEnd, Except.ok.injEq] at h
      subst h
      exact ⟨_, rfl, flushed_ne_eof _ _ rest (List.prefix_refl _) hI⟩
  | digit dots buf =>
    simp only [Mode.finish, Except.ok.injEq] at h
    subst h
    exact ⟨_, rfl, numberToken_ne_eof dots buf⟩
  | white =>
    simp only [Mode.finish, Except.ok.injEq] at h
    subst h
    exact ⟨_, rfl, by decide⟩

theorem lexFrom_eof_once (rest : List Byte) :
    ∀ (m : Mode) (toks : List GoString) (out : List Byte) (r : List GoString × List Byte),
      NoEofInv m rest → lexFrom keywords rest m toks out = .ok r →
      ∃ mid, r.1 = toks ++ mid ++ [str "EOF"] ∧ ∀ t ∈ mid, t ≠ str "EOF" := by
  induction rest with
  | nil =>
    intro m toks out r hI h
    simp only [lexFrom] at h
    obtain ⟨x, hx, hne⟩ := noEof_finish m [] toks out r hI h
    exact ⟨[x], hx, by simpa using hne⟩
  | cons c rs ih =>
    intro m toks out r hI h
    by_cases hc : c = 0
    · simp only [lexFrom, hc, if_true] at h
      obtain ⟨x, hx, hne⟩ := noEof_finish m (c :: rs) toks out r hI h
      exact ⟨[x], hx, by simpa using hne⟩
    · simp only [lexFrom, hc, if_false] at h
      obtain ⟨hI', hE⟩ := noEof_step m c rs hI
      obtain ⟨mid, hmid, hne⟩ := ih _ _ _ r hI' h
      refine ⟨m.emit keywords c ++ mid, by simp [hmid], ?_⟩
      intro t ht
      rcases List.mem_append.1 ht with ht | ht
      · exact hE t ht
      · exact hne t ht

theorem scanTokens_getLast_eof (src : GoString) (toks : List GoString)
    (h : scanTokens src = .ok toks) : toks.getLast? = some (str "EOF") := by
  unfold scanTokens scanSource Lexer.scan at h
  cases hs : scanLoop keywords ((NewLexer src).reader.rest.length + 1) (NewLexer src) with
  | error e => simp [hs] at h
  | ok l =>
    simp only [hs, Except.ok.injEq] at h
    subst h
    exact scan_loop_last _ _ _ _ hs

/-- Claim C2 (amended): whenever the run of `scan` on an input returns a token
list, the last element of that list is the end-of-input descriptor `EOF`; and
when the word `EOF` does not occur in the input, `EOF` occurs exactly once in
the list. -/
theorem scan_eof_last_and_once (src : GoString) (toks : List GoString)
    (h : scanTokens src = .ok toks) :
    toks.getLast? = some (str "EOF") ∧
      (¬ (str "EOF" <:+: src) → toks.count (str "EOF") = 1) := by
  refine ⟨scanTokens_getLast_eof src toks h, fun hno => ?_⟩
  obtain ⟨o, hl⟩ := lexFrom_of_scanTokens src toks h
  obtain ⟨mid, hmid, hne⟩ :=
    lexFrom_eof_once src (.main []) [] [] (toks, o) (by simpa [NoEofInv, NoEofWord] using hno) hl
  simp only [List.nil_append] at hmid
  have hc : mid.count (str "EOF") = 0 :=
    List.count_eq_zero.2 (fun hm => hne _ hm rfl)
  rw [hmid, List.count_append, hc]
  simp

set_option maxRecDepth 100000 in
/-- Witness for `scan_eof_last_and_once` at the input `1 + 2`. -/
theorem scan_eof_last_and_once_witness :
    scanTokens (str "1 + 2") =
        .ok [str "INT:1", str "WS", str "ADD", str "WS", str "INT:2", str "EOF"] ∧
      ¬ (str "EOF" <:+: str "1 + 2") ∧
      [str "INT:1", str "WS", str "ADD", str "WS", str "INT:2", str "EOF"].getLast?
        = some (str "EOF") ∧
      [str "INT:1", str "WS", str "ADD", str "WS", str "INT:2", str "EOF"].count (str "EOF")
        = 1 :=
  ⟨by decide, by decide, (scan_eof_last_and_once (str "1 + 2") _ (by decide)).1,
    (scan_eof_last_and_once (str "1 + 2") _ (by decide)).2 (by decide)⟩

end Lang
